import Mathlib

/-!
Verification development for the self_gpt streaming-completion pipeline:
the `Cache` decorator of `src/sgpt/cache.py` and the completion loop of
`src/sgpt/handlers/handler.py` (`Handler.get_completion`, `Handler.complete`,
`Handler.handle_function_call`; the loop in
`src/sgpt/handlers/agent_abc.py` accumulates tool-call fragments with the
same statements).

The Python code is shallowly embedded: generators become functions returning
the list of yielded fragments plus a final state, the filesystem cache
directory becomes a list of entries carrying a modification time drawn from a
logical clock, and the transport / tool registry / operator input become
scripted environment data.  `json.dumps` is modelled character for character
on a JSON value type (`J`); CPython float `repr` strings are carried as the
`num` payload.  The `md5` digest is an arbitrary function parameter `d`;
statements that need distinct digests for distinct serializations take
injectivity of `d` as a hypothesis, which is the spec's own reading of the
digest ("collision resistance is not a security requirement here, only
uniqueness for identical calls").
-/

namespace SelfGpt

/-! ## JSON values, as produced by the arguments of `Handler.get_completion`

`Cache.__call__` computes `md5(json.dumps((args[1:], kwargs)).encode())`.
`args[1:]` is always the empty tuple (the only positional argument at every
call site is `self`), and `kwargs` is the dictionary
`{model, temperature, top_p, messages, functions, caching}` in that call-site
insertion order.  The mutual inductive below models exactly the JSON values
that can appear there; `num` carries the decimal text CPython's `repr`
produces for a float (or `Infinity`/`NaN`/an integer literal), since
`json.dumps` emits that text verbatim.
-/

mutual

inductive J where
  | null : J
  | bool : Bool → J
  | num : String → J
  | str : String → J
  | arr : JList → J
  | obj : JObj → J
deriving DecidableEq

inductive JList where
  | nil : JList
  | cons : J → JList → JList
deriving DecidableEq

inductive JObj where
  | nil : JObj
  | cons : String → J → JObj → JObj
deriving DecidableEq

end

/-- Lowercase hexadecimal digit for a value below 16, as `%04x` renders it. -/
def hexDig (d : Nat) : Char :=
  if d < 10 then Char.ofNat (48 + d) else Char.ofNat (87 + d)

/-- Four lowercase hex digits of a code point below 0x10000 (`\uXXXX`). -/
def hex4 (n : Nat) : List Char :=
  [hexDig (n / 4096 % 16), hexDig (n / 256 % 16), hexDig (n / 16 % 16), hexDig (n % 16)]

/-- Escape of one character, following CPython's `json.dumps` with its default
`ensure_ascii=True`: the two-character escapes for quote, backslash and the
five control shorthands, `\uXXXX` for other control characters and for
everything at or above `0x7f`, and a surrogate pair for the astral plane. -/
def escChar (c : Char) : List Char :=
  if c = '"' then ['\\', '"']
  else if c = '\\' then ['\\', '\\']
  else if c = '\n' then ['\\', 'n']
  else if c = '\r' then ['\\', 'r']
  else if c = '\t' then ['\\', 't']
  else if c = '\x08' then ['\\', 'b']
  else if c = '\x0c' then ['\\', 'f']
  else if c.toNat < 0x20 ∨ 0x7f ≤ c.toNat then
    if c.toNat < 0x10000 then '\\' :: 'u' :: hex4 c.toNat
    else
      let n := c.toNat - 0x10000
      ('\\' :: 'u' :: hex4 (0xd800 + n / 0x400)) ++ '\\' :: 'u' :: hex4 (0xdc00 + n % 0x400)
  else [c]

/-- Escape of a character sequence. -/
def escList : List Char → List Char
  | [] => []
  | c :: cs => escChar c ++ escList cs

/-- JSON rendering of a Python `str`: the escaped text between two quotes. -/
def encStr (s : String) : List Char :=
  '"' :: escList s.data ++ ['"']

mutual

/-- Character-level model of `json.dumps` with its default separators
`(", ", ": ")` and `ensure_ascii=True`, restricted to the value grammar `J`. -/
def dumpJ : J → List Char
  | .null => 'n' :: 'u' :: ['l', 'l']
  | .bool true => 't' :: 'r' :: ['u', 'e']
  | .bool false => 'f' :: 'a' :: ['l', 's', 'e']
  | .num s => s.data
  | .str s => encStr s
  | .arr l => '[' :: dumpJList l ++ [']']
  | .obj l => '\x7b' :: dumpJObj l ++ ['\x7d']

/-- Array elements joined by the default item separator `", "`. -/
def dumpJList : JList → List Char
  | .nil => []
  | .cons v .nil => dumpJ v
  | .cons v tl => dumpJ v ++ ',' :: ' ' :: dumpJList tl

/-- Object items `key: value` joined by `", "` in insertion order. -/
def dumpJObj : JObj → List Char
  | .nil => []
  | .cons k v .nil => encStr k ++ ':' :: ' ' :: dumpJ v
  | .cons k v tl => encStr k ++ ':' :: ' ' :: dumpJ v ++ ',' :: ' ' :: dumpJObj tl

end

/-! ## Messages, tool schemas and the cache fingerprint -/

/-- Every dictionary the handlers ever place in the `messages` list, with its
exact key insertion order (the order `json.dumps` preserves):
`plain` is the `{"role", "content"}` shape built by `make_messages`;
`funcNameContent` is the decline record of `handle_function_call`
(`{"role": "function", "name", "content"}`, handler.py line 85);
`assistantCall` is the assistant record of the accepted call
(`{"role": "assistant", "content": "", "function_call": {"name", "arguments"}}`,
line 94); `funcContentName` is the tool-result record
(`{"role": "function", "content", "name"}`, line 104). -/
inductive Message where
  | plain (role content : String)
  | funcNameContent (name content : String)
  | assistantCall (name arguments : String)
  | funcContentName (content name : String)
deriving DecidableEq, Repr

/-- Role string of a message, as read by `messages[-1]["role"]`. -/
def Message.role : Message → String
  | .plain r _ => r
  | .funcNameContent _ _ => "function"
  | .assistantCall _ _ => "assistant"
  | .funcContentName _ _ => "function"

/-- Content string of a message, as read by `messages[-1]["content"]`. -/
def Message.content : Message → String
  | .plain _ c => c
  | .funcNameContent _ c => c
  | .assistantCall _ _ => ""
  | .funcContentName c _ => c

/-- One entry of the `functions` keyword argument, in the shape
`get_openai_schemas` builds (`src/sgpt/function.py` lines 81-88):
`{"type": "function", "function": {"name", "description", "parameters"}}`,
where `parameters` is an arbitrary JSON schema value. -/
structure Schema where
  name : String
  description : String
  parameters : J
deriving DecidableEq

/-- The keyword arguments of one `get_completion` call, exactly the fields the
two call sites (`Handler.handle` and the recursion inside `Handler.complete`)
pass, in their shared insertion order.  `temperature` and `topP` carry the
`repr` text of the Python float (CPython's `repr` is injective on floats, so
distinct float values are distinct `num` strings). -/
structure Request where
  model : String
  temperature : String
  topP : String
  messages : List Message
  functions : Option (List Schema)
  caching : Bool
deriving DecidableEq

/-- JSON value of one message dictionary. -/
def msgToJ : Message → J
  | .plain r c => .obj (.cons "role" (.str r) (.cons "content" (.str c) .nil))
  | .funcNameContent n c =>
      .obj (.cons "role" (.str "function") (.cons "name" (.str n)
        (.cons "content" (.str c) .nil)))
  | .assistantCall n a =>
      .obj (.cons "role" (.str "assistant") (.cons "content" (.str "")
        (.cons "function_call"
          (.obj (.cons "name" (.str n) (.cons "arguments" (.str a) .nil))) .nil)))
  | .funcContentName c n =>
      .obj (.cons "role" (.str "function") (.cons "content" (.str c)
        (.cons "name" (.str n) .nil)))

/-- JSON value of one schema dictionary. -/
def schemaToJ (s : Schema) : J :=
  .obj (.cons "type" (.str "function")
    (.cons "function"
      (.obj (.cons "name" (.str s.name) (.cons "description" (.str s.description)
        (.cons "parameters" s.parameters .nil)))) .nil))

/-- JSON list built from a Lean list. -/
def toJList : List J → JList
  | [] => .nil
  | v :: tl => .cons v (toJList tl)

/-- JSON value of the `functions` argument: `null` for Python `None`. -/
def functionsToJ : Option (List Schema) → J
  | none => .null
  | some l => .arr (toJList (l.map schemaToJ))

/-- JSON value of the tuple `(args[1:], kwargs)` that `Cache.__call__` dumps:
the empty positional tuple, then the keyword dictionary in insertion order,
with the `caching` flag still present (it is popped only after the key is
computed). -/
def reqToJ (r : Request) : J :=
  .arr (.cons (.arr .nil)
    (.cons (.obj
      (.cons "model" (.str r.model)
        (.cons "temperature" (.num r.temperature)
          (.cons "top_p" (.num r.topP)
            (.cons "messages" (.arr (toJList (r.messages.map msgToJ)))
              (.cons "functions" (functionsToJ r.functions)
                (.cons "caching" (.bool r.caching) .nil))))))) .nil))

/-- Serialized request: the model of `json.dumps((args[1:], kwargs))`. -/
def serializeRequest (r : Request) : String :=
  ⟨dumpJ (reqToJ r)⟩

/-- Cache key of a request under digest `d`: the model of
`md5(json.dumps((args[1:], kwargs)).encode("utf-8")).hexdigest()` with the
digest abstracted to `d`. -/
def fingerprint (d : String → String) (r : Request) : String :=
  d (serializeRequest r)

/-! ## The on-disk cache (`src/sgpt/cache.py`)

The cache directory is a list of entries; `mtime` is drawn from a logical
clock that advances on every write, modelling a strictly monotone filesystem
timestamp. -/

/-- One cache file: name, text content, last modification time. -/
structure Entry where
  key : String
  body : String
  mtime : Nat
deriving DecidableEq, Repr

/-- File lookup: `file.exists()` / `file.read_text()` for the file named by
`key`. -/
def lookupStore (key : String) : List Entry → Option String
  | [] => none
  | e :: tl => if e.key = key then some e.body else lookupStore key tl

/-- File creation `file.write_text(result)`: creates the file or overwrites an
existing one, refreshing its modification time. -/
def writeStore (key body : String) (clock : Nat) (store : List Entry) : List Entry :=
  store.filter (fun e => e.key != key) ++ [⟨key, body, clock⟩]

/-- Eviction step `Cache._delete_oldest_files` (cache.py lines 54-68): sort
all files by modification time ascending and delete the oldest
`count - max_files` when the count exceeds `max_files`. -/
def deleteOldestFiles (maxFiles : Nat) (store : List Entry) : List Entry :=
  let files := List.insertionSort (fun a b => a.mtime ≤ b.mtime) store
  if maxFiles < files.length then files.drop (files.length - maxFiles) else store

/-- Byte-wise list containment test for `a isPref b`, modelling Python string
containment after `==` on characters. -/
def isPref : List Char → List Char → Bool
  | a :: as, b :: bs => (a == b) && isPref as bs
  | [], _ => true
  | _ :: _, [] => false

/-- Model of Python's `sub in s` substring test on character lists. -/
def containsSub (pat : List Char) : List Char → Bool
  | [] => isPref pat []
  | s@(_ :: t) => isPref pat s || containsSub pat t

/-- The tool-call marker whose presence in a response body suppresses the
cache write (`"@FunctionCall" not in result`, cache.py line 47). -/
def marker : String := "@FunctionCall"

/-- Boolean form of `"@FunctionCall" in result`. -/
def containsMarker (s : String) : Bool := containsSub marker.data s.data

/-- Accumulation `result = ""; for i in ...: result += i` of the wrapper. -/
def concatAll (l : List String) : String := l.foldl (· ++ ·) ""

/-! ## The streaming completion loop (`src/sgpt/handlers/handler.py`)

Generators are embedded as functions returning the list of yielded fragments
together with the final state; the transport, the tool registry, `json.loads`
on the argument payload and the operator's prompt answers are scripted inputs.
`St` additionally carries ghost observation fields (`closed`, `trace`,
`toolLog`) that record events without influencing control flow. -/

/-- One element of a chunk's `delta.tool_calls` list: an optional name
fragment and an optional arguments fragment, with `""` modelling the falsy
absent field. -/
structure ToolFrag where
  name : String
  arguments : String
deriving DecidableEq, Repr

/-- One streamed transport chunk (`chunk.choices[0]`), or the operator's
`KeyboardInterrupt` being raised while the loop waits on the stream. -/
inductive Chunk where
  | data (content : Option String) (toolCalls : List ToolFrag) (finishReason : Option String)
  | interrupt
deriving DecidableEq, Repr

/-- External collaborators and configuration, read-only during a turn. -/
structure Cfg where
  d : String → String
  cacheLen : Nat
  shellLike : Bool
  showFunctionsOutput : Bool
  parse : String → Option (List (String × String))
  tools : String → List (String × String) → Option String

/-- Mutable state threaded through one `handle` turn.  `streams` and `inputs`
script the transport responses and the operator's prompt answers; `messages`
is the conversation list the handlers mutate in place; `store` and `clock`
are the cache directory; `closed`, `trace` and `toolLog` are ghost fields
recording `response.close()` calls, each cache-wrapper invocation's
`(key, caching)` pair, and each executed tool. -/
structure St where
  streams : List (List Chunk)
  inputs : List String
  messages : List Message
  store : List Entry
  clock : Nat
  closed : Nat
  trace : List (String × Bool)
  toolLog : List (String × String)
deriving DecidableEq, Repr

/-- How an embedded call ends: normal return, a propagating Python exception
(`json.loads` failure, unknown tool, transport failure), or interpreter fuel
running out (a model artifact, never reached in the runs the theorems use). -/
inductive Outcome where
  | ok
  | exn
  | fuel
deriving DecidableEq, Repr

/-- The sentinel content `handle_function_call` appends on decline. -/
def declineContent : String := "The user declined to execute this function."

/-- Model of Python's `str.lower`: characters mapped to lowercase one by one
(`Char.toLower` agrees with Python on ASCII, which is all the confirmation
prompt compares). -/
def strLower (s : String) : String := ⟨s.data.map Char.toLower⟩

/-- Model of Python's `str.strip` with no argument: leading and trailing
whitespace removed. -/
def strStrip (s : String) : String :=
  ⟨((s.data.dropWhile Char.isWhitespace).reverse.dropWhile Char.isWhitespace).reverse⟩

/-- Rendering `", ".join(f'{k}="{v}"' for k, v in dict_args.items())`. -/
def joinDictArgs (l : List (String × String)) : String :=
  String.intercalate ", " (l.map fun kv => kv.1 ++ "=\"" ++ kv.2 ++ "\"")

/-- Embedding of `Handler.handle_function_call` (handler.py lines 63-104).
Yields the confirmation dialogue, reads one operator answer, lowercases and
strips it, and either appends the decline record and returns, or appends the
assistant call record, executes the tool and appends the result record.
Python's `str.lower`/`str.strip` are modelled by `strLower` and `strStrip`. -/
def handleFunctionCall (cfg : Cfg) (st : St) (name arguments : String) :
    List String × St × Outcome :=
  let y0 := "\n"
  match cfg.parse arguments with
  | none => ([y0], st, .exn)
  | some dictArgs =>
    let y1 := "Are you sure you want to run this function? [y/n]:\n "
    let y2 := "> @FunctionCall `" ++ name ++ "(" ++ joinDictArgs dictArgs ++ ")` \n\n"
    match st.inputs with
    | [] => ([y0, y1, y2], st, .exn)
    | raw :: restIn =>
      let stP := {st with inputs := restIn}
      let userInput := strStrip (strLower raw)
      let y3 := userInput ++ "\n"
      if userInput = "y" then
        let st1 := {stP with messages := stP.messages ++ [.assistantCall name arguments]}
        match cfg.tools name dictArgs with
        | none => ([y0, y1, y2, y3], st1, .exn)
        | some result =>
          let st2 := {st1 with toolLog := st1.toolLog ++ [(name, arguments)]}
          let out := if cfg.showFunctionsOutput then ["```text\n" ++ result ++ "\n```\n"] else []
          ([y0, y1, y2, y3] ++ out,
           {st2 with messages := st2.messages ++ [.funcContentName result name]}, .ok)
      else
        ([y0, y1, y2, y3, "Function call aborted by user.\n"],
         {stP with messages := stP.messages ++ [.funcNameContent name declineContent]}, .ok)

/-- The decline test of handler.py lines 171-175:
`messages[-1]["role"] == "function" and messages[-1]["content"] == ...`. -/
def declined (msgs : List Message) : Bool :=
  match msgs.getLast? with
  | some m => m.role == "function" && m.content == declineContent
  | none => false

/-- One tool-call fragment folded into the `(name, arguments)` accumulator
(handler.py lines 164-168 and identically agent_abc.py lines 203-207): a
truthy name field overwrites the name, a truthy arguments field is appended
to the running argument string. -/
def accumToolCall (acc : String × String) (tc : ToolFrag) : String × String :=
  (if tc.name = "" then acc.1 else tc.name,
   if tc.arguments = "" then acc.2 else acc.2 ++ tc.arguments)

/-- Result of draining one transport stream: either the generator finished
(normally or with an exception / after an interrupt), or it reached
`finish_reason == "tool_calls"` with the tool call resolved and must now
resume via the recursive `get_completion` call (handler.py line 177). -/
inductive StepRes where
  | done (ys : List String) (st : St) (o : Outcome)
  | resume (ys : List String) (st : St)
deriving DecidableEq, Repr

/-- State component of a drain result. -/
def StepRes.st : StepRes → St
  | .done _ s _ => s
  | .resume _ s => s

/-- Yields component of a drain result. -/
def StepRes.ys : StepRes → List String
  | .done ys _ _ => ys
  | .resume ys _ => ys

/-- Embedding of the chunk loop of `Handler.complete` (handler.py lines
155-189).  Each chunk first folds its tool-call fragments into the
accumulator; on `finish_reason == "tool_calls"` the call is handed to
`handleFunctionCall` and the loop ends (declined: the turn ends; resolved:
`resume`); otherwise `delta.content or ""` is yielded.  A
`KeyboardInterrupt` raised while pulling the next chunk closes the response
stream and ends the generator without propagating. -/
def completeChunks (cfg : Cfg) (st : St) :
    List Chunk → String → String → StepRes
  | [], _, _ => .done [] st .ok
  | .interrupt :: _, _, _ => .done [] {st with closed := st.closed + 1} .ok
  | .data content toolCalls finishReason :: rest, name, arguments =>
    let acc := toolCalls.foldl accumToolCall (name, arguments)
    if finishReason = some "tool_calls" then
      match handleFunctionCall cfg st acc.1 acc.2 with
      | (ys, st1, .ok) =>
        if declined st1.messages then .done ys st1 .ok
        else .resume ys st1
      | (ys, st1, o) => .done ys st1 o
    else
      match completeChunks cfg st rest acc.1 acc.2 with
      | .done ys st1 o => .done (content.getD "" :: ys) st1 o
      | .resume ys st1 => .resume (content.getD "" :: ys) st1

/-- Tail of the cache wrapper (cache.py lines 47-49), run after the wrapped
generator is exhausted: write the accumulated body unless it contains the
tool-call marker, then run eviction.  The write is unconditional on the
`caching` flag and on the file's prior existence. -/
def cacheFinish (cfg : Cfg) (key : String) (ys : List String) (st : St) : St :=
  let result := concatAll ys
  let st1 := if containsMarker result then st
    else {st with store := writeStore key result st.clock st.store, clock := st.clock + 1}
  {st1 with store := deleteOldestFiles cfg.cacheLen st1.store}

/-- The keyword arguments of one `get_completion` call, minus the message
list (which lives in `St`). -/
structure Prm where
  model : String
  temperature : String
  topP : String
  functions : Option (List Schema)
  caching : Bool

/-- The request a `get_completion` call serializes for its cache key. -/
def mkRequest (p : Prm) (msgs : List Message) : Request :=
  ⟨p.model, p.temperature, p.topP, msgs, p.functions, p.caching⟩

/-- The cache key a `get_completion` call computes (cache.py line 38). -/
def requestKey (cfg : Cfg) (p : Prm) (msgs : List Message) : String :=
  fingerprint cfg.d (mkRequest p msgs)

/-- Embedding of the cache-wrapped `Handler.get_completion` (cache.py lines
37-49 around handler.py lines 107-189).  The wrapper computes the key from
the keyword arguments with `caching` still present, serves a stored body as
one fragment on a cache-enabled hit, and otherwise drains the live stream,
resuming after a resolved tool call by recursing with `caching=False`, and
finally runs the write/eviction tail.  `fuelLeft` bounds the recursion depth
(unbounded in the source); `trace` records each wrapper entry. -/
def getCompletion (cfg : Cfg) : Nat → Prm → St → List String × St × Outcome
  | 0, _, st => ([], st, .fuel)
  | fuelLeft + 1, p, st0 =>
    let key := requestKey cfg p st0.messages
    let st := {st0 with trace := st0.trace ++ [(key, p.caching)]}
    match p.caching, lookupStore key st.store with
    | true, some body => ([body], st, .ok)
    | _, _ =>
      let fns := if cfg.shellLike then none else p.functions
      match st.streams with
      | [] => ([], st, .exn)
      | s :: restStreams =>
        let stS := {st with streams := restStreams}
        let (ys, st1, o) :=
          match completeChunks cfg stS s "" "" with
          | .done ys st1 o => (ys, st1, o)
          | .resume ys st1 =>
            match getCompletion cfg fuelLeft ⟨p.model, p.temperature, p.topP, fns, false⟩ st1 with
            | (ys2, st2, o2) => (ys ++ ys2, st2, o2)
        match o with
        | .ok => (ys, cacheFinish cfg key ys st1, .ok)
        | o => (ys, st1, o)

/-! ## Well-formedness of serialized values

`num` payloads in real requests are CPython float/int `repr` texts (or the
`json.dumps` specials `Infinity`, `-Infinity`, `NaN`): nonempty, starting with
a digit, `-`, `I` or `N`, and built from the characters below.  This is the
only side condition the injectivity development needs. -/

/-- Characters that can occur in a serialized Python number. -/
def isNumChar (c : Char) : Bool :=
  c.isDigit || c = '-' || c = '+' || c = '.' || c = 'e' || c = 'E' ||
    c = 'I' || c = 'n' || c = 'f' || c = 'i' || c = 't' || c = 'y' ||
    c = 'N' || c = 'a'

/-- Characters that can start a serialized Python number. -/
def isNumStart (c : Char) : Bool :=
  c.isDigit || c = '-' || c = 'I' || c = 'N'

/-- Shape of the text `json.dumps` emits for a Python number. -/
def numRepr (s : String) : Bool :=
  match s.data with
  | [] => false
  | c :: cs => isNumStart c && (c :: cs).all isNumChar

mutual

/-- Well-formedness of a JSON value: every `num` payload has number shape. -/
def wfJ : J → Bool
  | .null => true
  | .bool _ => true
  | .num s => numRepr s
  | .str _ => true
  | .arr l => wfJL l
  | .obj l => wfJO l

/-- Well-formedness of the values of a JSON array. -/
def wfJL : JList → Bool
  | .nil => true
  | .cons v tl => wfJ v && wfJL tl

/-- Well-formedness of the values of a JSON object. -/
def wfJO : JObj → Bool
  | .nil => true
  | .cons _ v tl => wfJ v && wfJO tl

end

/-- Well-formedness of a request: its two float fields and every schema's
`parameters` value are well formed (true of everything CPython serializes). -/
def wfRequest (r : Request) : Bool :=
  numRepr r.temperature && numRepr r.topP &&
    match r.functions with
    | none => true
    | some l => l.all fun s => wfJ s.parameters

mutual

/-- Structural size of a JSON value, a fuel bound for the reader below. -/
def sizeJ : J → Nat
  | .null => 1
  | .bool _ => 1
  | .num _ => 1
  | .str _ => 1
  | .arr l => sizeJL l + 1
  | .obj l => sizeJO l + 1

/-- Structural size of an array spine. -/
def sizeJL : JList → Nat
  | .nil => 1
  | .cons v tl => sizeJ v + sizeJL tl + 1

/-- Structural size of an object spine. -/
def sizeJO : JObj → Nat
  | .nil => 1
  | .cons _ v tl => sizeJ v + sizeJO tl + 1

end

/-! ## A reader for the serialized form

The definitions below are proof devices, not models of repository code: they
read back exactly the text `dumpJ` emits, and the round-trip theorems they
support show that distinct well-formed values serialize to distinct text
(which is what the fingerprint claims need).  No claim statement mentions
them. -/

/-- Numeric value of a lowercase hex digit. -/
def hexVal (c : Char) : Nat :=
  if c.toNat ≤ 57 then c.toNat - 48 else c.toNat - 87

/-- Reader for one character code of an escaped string: a plain character, a
two-character escape, a `\uXXXX` escape, or a surrogate pair. -/
def decOne : List Char → Option (Char × List Char)
  | '\\' :: '"' :: r => some ('"', r)
  | '\\' :: '\\' :: r => some ('\\', r)
  | '\\' :: 'n' :: r => some ('\n', r)
  | '\\' :: 'r' :: r => some ('\r', r)
  | '\\' :: 't' :: r => some ('\t', r)
  | '\\' :: 'b' :: r => some ('\x08', r)
  | '\\' :: 'f' :: r => some ('\x0c', r)
  | '\\' :: 'u' :: h3 :: h2 :: h1 :: h0 :: r =>
    let n := ((hexVal h3 * 16 + hexVal h2) * 16 + hexVal h1) * 16 + hexVal h0
    if 0xd800 ≤ n ∧ n < 0xdc00 then
      match r with
      | '\\' :: 'u' :: g3 :: g2 :: g1 :: g0 :: r2 =>
        let m := ((hexVal g3 * 16 + hexVal g2) * 16 + hexVal g1) * 16 + hexVal g0
        some (Char.ofNat (0x10000 + (n - 0xd800) * 0x400 + (m - 0xdc00)), r2)
      | _ => none
    else some (Char.ofNat n, r)
  | '\\' :: _ => none
  | '"' :: _ => none
  | c :: r => some (c, r)
  | [] => none

/-- Reader for an escaped string body up to its closing quote. -/
def decStr : Nat → List Char → Option (List Char × List Char)
  | 0, _ => none
  | _ + 1, [] => none
  | f + 1, a :: s =>
    if a = '"' then some ([], s)
    else (decOne (a :: s)).bind fun p => (decStr f p.2).map fun q => (p.1 :: q.1, q.2)

/-- Longest numeric-character run at the head of the input. -/
def spanNum : List Char → List Char × List Char
  | [] => ([], [])
  | c :: r =>
    if isNumChar c then
      let p := spanNum r
      (c :: p.1, p.2)
    else ([], c :: r)

mutual

/-- Reader for one serialized JSON value, dispatching on the head character. -/
def parseJ : Nat → List Char → Option (J × List Char)
  | 0, _ => none
  | _ + 1, [] => none
  | f + 1, c :: t =>
    if c = 'n' then
      match t with
      | 'u' :: 'l' :: 'l' :: r => some (.null, r)
      | _ => none
    else if c = 't' then
      match t with
      | 'r' :: 'u' :: 'e' :: r => some (.bool true, r)
      | _ => none
    else if c = 'f' then
      match t with
      | 'a' :: 'l' :: 's' :: 'e' :: r => some (.bool false, r)
      | _ => none
    else if c = '"' then
      (decStr (t.length + 1) t).map fun p => (.str ⟨p.1⟩, p.2)
    else if c = '[' then
      match t with
      | ']' :: r => some (.arr .nil, r)
      | t => (parseJList f t).map fun p => (.arr p.1, p.2)
    else if c = '\x7b' then
      match t with
      | '\x7d' :: r => some (.obj .nil, r)
      | t => (parseJObj f t).map fun p => (.obj p.1, p.2)
    else if isNumStart c then
      some (.num ⟨(spanNum (c :: t)).1⟩, (spanNum (c :: t)).2)
    else none

/-- Reader for the elements of a nonempty serialized array, closed by `]`. -/
def parseJList : Nat → List Char → Option (JList × List Char)
  | 0, _ => none
  | f + 1, s =>
    (parseJ f s).bind fun p =>
      match p.2 with
      | ']' :: r => some (.cons p.1 .nil, r)
      | ',' :: ' ' :: r => (parseJList f r).map fun q => (.cons p.1 q.1, q.2)
      | _ => none

/-- Reader for the items of a nonempty serialized object, closed by the
closing brace. -/
def parseJObj : Nat → List Char → Option (JObj × List Char)
  | 0, _ => none
  | f + 1, '"' :: s =>
    (decStr (s.length + 1) s).bind fun pk =>
      match pk.2 with
      | ':' :: ' ' :: r =>
        (parseJ f r).bind fun pv =>
          match pv.2 with
          | '\x7d' :: r2 => some (.cons ⟨pk.1⟩ pv.1 .nil, r2)
          | ',' :: ' ' :: r2 => (parseJObj f r2).map fun q => (.cons ⟨pk.1⟩ pv.1 q.1, q.2)
          | _ => none
      | _ => none
  | _ + 1, _ => none

end

/-- Guard for reading a serialized number back: the following text must not
begin with a numeric character (inside a serialized value the follower is
always `,`, `]` or a closing brace). -/
def numOk : J → List Char → Prop
  | .num _, c :: _ => isNumChar c = false
  | _, _ => True

/-- The text fragment the chunk loop yields for a non-terminal chunk
(`delta.content or ""`). -/
def chunkText : Chunk → String
  | .data content _ _ => content.getD ""
  | .interrupt => ""

/-- A data chunk whose finish reason is not `"tool_calls"`. -/
def plainChunk : Chunk → Bool
  | .data _ _ fin => !(fin == some "tool_calls")
  | .interrupt => false

/-! ## Concrete scenarios used by witnesses and counterexamples -/

/-- Environment with the identity digest, used by fingerprint witnesses. -/
def cfgId : Cfg where
  d := id
  cacheLen := 10
  shellLike := false
  showFunctionsOutput := false
  parse := fun _ => none
  tools := fun _ _ => none

/-- Environment with a constant digest, capacity 10, the confirmation-mode
handler flags, an argument parser accepting only the payload of the scripted
tool call, and a registry answering `"ok"`. -/
def cfgK : Cfg where
  d := fun _ => "k"
  cacheLen := 10
  shellLike := false
  showFunctionsOutput := false
  parse := fun s => if s = "\x7b\x7d" then some [] else none
  tools := fun _ _ => some "ok"

/-- Parameters of a caching-enabled call. -/
def prmT : Prm := ⟨"m", "0.7", "1.0", none, true⟩

/-- Parameters of a caching-disabled call. -/
def prmF : Prm := ⟨"m", "0.7", "1.0", none, false⟩

/-- A state with no scripted data, from which scenarios are built. -/
def stEmpty : St where
  streams := []
  inputs := []
  messages := [.plain "user" "q"]
  store := []
  clock := 0
  closed := 0
  trace := []
  toolLog := []

/-- First transport leg of the tool-call scenario: a chunk carrying the tool
name `list_files` and the full argument payload, then the
`finish_reason == "tool_calls"` chunk. -/
def legToolCall : List Chunk :=
  [.data none [⟨"list_files", "\x7b\x7d"⟩] none, .data none [] (some "tool_calls")]

/-- Continuation transport leg: plain text, then `finish_reason == "stop"`. -/
def legPlain : List Chunk :=
  [.data (some "Result is 42.") [] none, .data none [] (some "stop")]

/-- Scenario state for the multi-leg exchange: both legs scripted, operator
answers `y`. -/
def stMulti : St := {stEmpty with streams := [legToolCall, legPlain], inputs := ["y"]}

/-- Scenario state with the operator answering a capital `Y`. -/
def stCapY : St := {stEmpty with streams := [legToolCall, legPlain], inputs := ["Y"]}

/-- Scenario state with the operator declining (`n`). -/
def stDecline : St := {stEmpty with streams := [legToolCall, legPlain], inputs := ["n"]}

/-- Scenario state whose single leg is interrupted after one text chunk. -/
def stInterrupt : St :=
  {stEmpty with streams := [[.data (some "Hello") [] none, .interrupt,
    .data (some " world") [] none]]}

/-- Scenario state with an existing cache file under the key the constant
digest produces, and one scripted plain-text leg. -/
def stPrefilled : St :=
  { stEmpty with
    streams := [[.data (some "new") [] none]]
    store := [⟨"k", "old", 0⟩]
    clock := 1 }

/-- Request used by the fingerprint witness. -/
def rWA : Request := ⟨"m", "0.7", "1.0", [], none, true⟩

/-- Request differing from `rWA` in one float field. -/
def rWB : Request := ⟨"m", "0.8", "1.0", [], none, true⟩

/-! ## Counterexamples -/

/-- Claim C1 is false on the code: in the multi-leg exchange `stMulti`
(first leg ends in a resolved tool call, continuation leg is plain text) the
follow-up request is indeed issued with `caching=False` (trace flags
`[true, false]`), but the only persisted body is the continuation leg's
`"Result is 42."`, while the first leg's body — which contains the
`@FunctionCall` marker — is not persisted. -/
theorem C1_counterexample :
    (getCompletion cfgK 3 prmT stMulti).2.1.trace.map Prod.snd = [true, false] ∧
    (getCompletion cfgK 3 prmT stMulti).2.1.store.map Entry.body = ["Result is 42."] ∧
    containsMarker (concatAll (getCompletion cfgK 3 prmT stMulti).1) = true ∧
    concatAll (getCompletion cfgK 3 prmT stMulti).1 ≠ "Result is 42." := by
  decide

/-- Claim C4 is false on the code: a `caching=False` call whose key already
names an existing entry file (`stPrefilled` holds `("k", "old")`) still
writes, replacing the old body with the newly streamed `"new"`. -/
theorem C4_counterexample :
    lookupStore "k" stPrefilled.store = some "old" ∧
    getCompletion cfgK 2 prmF stPrefilled =
      (["new"],
       { streams := [], inputs := [], messages := [.plain "user" "q"],
         store := [⟨"k", "new", 1⟩], clock := 2, closed := 0,
         trace := [("k", false)], toolLog := [] }, .ok) := by
  decide

/-- Claim C6 is false on the code: interrupting the stream after the chunk
`"Hello"` closes the transport stream (`closed = 1`), stops fragment
production and raises nothing past the boundary, but the partial body
`"Hello"` is then persisted as a cache entry by the wrapper. -/
theorem C6_counterexample :
    getCompletion cfgK 3 prmT stInterrupt =
      (["Hello"],
       { streams := [], inputs := [], messages := [.plain "user" "q"],
         store := [⟨"k", "Hello", 0⟩], clock := 1, closed := 1,
         trace := [("k", true)], toolLog := [] }, .ok) := by
  decide

/-- Claim C7 is false on the code: the operator's raw answer `"Y"` is not the
string `"y"`, yet because the handler lowercases and strips it the tool is
executed, a second completion request is issued (two trace entries), and the
history ends with the tool-result message, not the decline sentinel. -/
theorem C7_counterexample :
    "Y" ≠ "y" ∧
    (getCompletion cfgK 3 prmT stCapY).2.1.toolLog = [("list_files", "\x7b\x7d")] ∧
    (getCompletion cfgK 3 prmT stCapY).2.1.trace.length = 2 ∧
    (getCompletion cfgK 3 prmT stCapY).2.1.messages.getLast? =
      some (.funcContentName "ok" "list_files") := by
  decide

/-- Claim C8 is false on the code: two fragments both carrying a tool name
leave the accumulator holding the second name `"b"`, not the first
occurrence `"a"` — assignment makes the last truthy occurrence win. -/
theorem C8_counterexample :
    ([⟨"a", "x"⟩, ⟨"b", "y"⟩] : List ToolFrag).foldl accumToolCall ("", "") = ("b", "xy") ∧
    "b" ≠ "a" := by
  decide

/-! ## Helper lemmas: concatenation and substring containment -/

theorem foldl_append_string (a : String) (ys : List String) :
    ys.foldl (· ++ ·) a = a ++ ys.foldl (· ++ ·) "" := by
  induction ys generalizing a with
  | nil => simp [List.foldl]
  | cons y ys ih =>
    simp only [List.foldl]
    rw [ih (a ++ y), ih ("" ++ y), String.empty_append, String.append_assoc]

theorem concatAll_cons (y : String) (ys : List String) :
    concatAll (y :: ys) = y ++ concatAll ys := by
  simp only [concatAll, List.foldl]
  rw [foldl_append_string, String.empty_append]

theorem concatAll_append (a b : List String) :
    concatAll (a ++ b) = concatAll a ++ concatAll b := by
  simp only [concatAll, List.foldl_append]
  rw [foldl_append_string]

theorem isPref_iff (p s : List Char) : isPref p s = true ↔ ∃ t, s = p ++ t := by
  induction p generalizing s with
  | nil =>
    exact ⟨fun _ => ⟨s, rfl⟩, fun _ => rfl⟩
  | cons a as ih =>
    cases s with
    | nil => simp [isPref]
    | cons b bs =>
      simp only [isPref, Bool.and_eq_true, beq_iff_eq, ih, List.cons_append,
        List.cons.injEq]
      constructor
      · rintro ⟨rfl, t, rfl⟩; exact ⟨t, rfl, rfl⟩
      · rintro ⟨t, rfl, rfl⟩; exact ⟨rfl, t, rfl⟩

theorem containsSub_iff (p s : List Char) :
    containsSub p s = true ↔ ∃ u v, s = u ++ p ++ v := by
  induction s with
  | nil =>
    simp only [containsSub, isPref_iff]
    constructor
    · rintro ⟨t, ht⟩
      exact ⟨[], t, ht⟩
    · rintro ⟨u, v, huv⟩
      rcases List.append_eq_nil.mp (List.append_eq_nil.mp huv.symm).1 with ⟨-, hp⟩
      exact ⟨v, by simp [hp, (List.append_eq_nil.mp huv.symm).2]⟩
  | cons c t ih =>
    simp only [containsSub, Bool.or_eq_true, isPref_iff, ih]
    constructor
    · rintro (⟨v, hv⟩ | ⟨u, v, huv⟩)
      · exact ⟨[], v, by simp [hv]⟩
      · exact ⟨c :: u, v, by simp [huv]⟩
    · rintro ⟨u, v, huv⟩
      cases u with
      | nil => exact Or.inl ⟨v, by simpa using huv⟩
      | cons x u' =>
        simp only [List.cons_append, List.cons.injEq] at huv
        exact Or.inr ⟨u', v, huv.2⟩

theorem containsSub_append_left (p a b : List Char) (h : containsSub p a = true) :
    containsSub p (a ++ b) = true := by
  rcases (containsSub_iff p a).mp h with ⟨u, v, rfl⟩
  exact (containsSub_iff p _).mpr ⟨u, v ++ b, by simp⟩

theorem containsSub_append_right (p a b : List Char) (h : containsSub p b = true) :
    containsSub p (a ++ b) = true := by
  rcases (containsSub_iff p b).mp h with ⟨u, v, rfl⟩
  exact (containsSub_iff p _).mpr ⟨a ++ u, v, by simp⟩

theorem containsMarker_append_left (a b : String) (h : containsMarker a = true) :
    containsMarker (a ++ b) = true := by
  simpa [containsMarker, String.data_append] using
    containsSub_append_left marker.data a.data b.data (by simpa [containsMarker] using h)

theorem containsMarker_append_right (a b : String) (h : containsMarker b = true) :
    containsMarker (a ++ b) = true := by
  simpa [containsMarker, String.data_append] using
    containsSub_append_right marker.data a.data b.data (by simpa [containsMarker] using h)

theorem containsMarker_concat_mem (ys : List String) (y : String) (hy : y ∈ ys)
    (h : containsMarker y = true) : containsMarker (concatAll ys) = true := by
  induction ys with
  | nil => cases hy
  | cons z ys ih =>
    rw [concatAll_cons]
    rcases List.mem_cons.mp hy with rfl | hmem
    · exact containsMarker_append_left _ _ h
    · exact containsMarker_append_right _ _ (ih hmem)

/-! ## Helper lemmas: eviction -/

instance : IsTotal Entry (fun a b => a.mtime ≤ b.mtime) :=
  ⟨fun a b => Nat.le_total a.mtime b.mtime⟩

instance : IsTrans Entry (fun a b => a.mtime ≤ b.mtime) :=
  ⟨fun _ _ _ h1 h2 => Nat.le_trans h1 h2⟩

theorem deleteOldestFiles_length_le (n : Nat) (s : List Entry) :
    (deleteOldestFiles n s).length ≤ n := by
  simp only [deleteOldestFiles]
  split
  · rename_i h
    rw [List.length_drop]
    omega
  · rename_i h
    rw [List.length_insertionSort] at h
    omega

theorem deleteOldestFiles_subset (n : Nat) (s : List Entry) :
    ∀ e ∈ deleteOldestFiles n s, e ∈ s := by
  intro e he
  simp only [deleteOldestFiles] at he
  split at he
  · exact (List.perm_insertionSort _ s).mem_iff.mp (List.mem_of_mem_drop he)
  · exact he

theorem deleteOldestFiles_removed (n : Nat) (s : List Entry) (h : n < s.length) :
    ∃ removed, s.Perm (removed ++ deleteOldestFiles n s) ∧
      removed.length = s.length - n ∧
      ∀ r ∈ removed, ∀ k ∈ deleteOldestFiles n s, r.mtime ≤ k.mtime := by
  have hlen : (List.insertionSort (fun a b => a.mtime ≤ b.mtime) s).length = s.length :=
    List.length_insertionSort _ _
  have hif : n < (List.insertionSort (fun a b => a.mtime ≤ b.mtime) s).length := by omega
  have hdel : deleteOldestFiles n s =
      (List.insertionSort (fun a b => a.mtime ≤ b.mtime) s).drop
        ((List.insertionSort (fun a b => a.mtime ≤ b.mtime) s).length - n) := by
    simp only [deleteOldestFiles]
    rw [if_pos hif]
  have hsplit := List.take_append_drop
    ((List.insertionSort (fun a b => a.mtime ≤ b.mtime) s).length - n)
    (List.insertionSort (fun a b => a.mtime ≤ b.mtime) s)
  have hsorted : List.Sorted (fun a b => a.mtime ≤ b.mtime)
      (List.insertionSort (fun a b => a.mtime ≤ b.mtime) s) :=
    List.sorted_insertionSort _ s
  refine ⟨(List.insertionSort (fun a b => a.mtime ≤ b.mtime) s).take
    ((List.insertionSort (fun a b => a.mtime ≤ b.mtime) s).length - n), ?_, ?_, ?_⟩
  · rw [hdel, hsplit]
    exact (List.perm_insertionSort _ s).symm
  · rw [List.length_take]
    omega
  · intro r hr k hk
    rw [hdel] at hk
    rw [← hsplit] at hsorted
    exact (List.pairwise_append.mp hsorted).2.2 r hr k hk

theorem mem_deleteOldestFiles_newest (n : Nat) (s : List Entry) (e : Entry)
    (he : e ∈ s) (hmax : ∀ x ∈ s, x = e ∨ x.mtime < e.mtime) (hn : 1 ≤ n) :
    e ∈ deleteOldestFiles n s := by
  by_cases hc : n < (List.insertionSort (fun a b => a.mtime ≤ b.mtime) s).length
  · simp only [deleteOldestFiles]
    rw [if_pos hc]
    have hes : e ∈ List.insertionSort (fun a b => a.mtime ≤ b.mtime) s :=
      (List.perm_insertionSort _ s).mem_iff.mpr he
    have hsplit := List.take_append_drop
      ((List.insertionSort (fun a b => a.mtime ≤ b.mtime) s).length - n)
      (List.insertionSort (fun a b => a.mtime ≤ b.mtime) s)
    have hsorted : List.Sorted (fun a b => a.mtime ≤ b.mtime)
        (List.insertionSort (fun a b => a.mtime ≤ b.mtime) s) :=
      List.sorted_insertionSort _ s
    rcases List.mem_append.mp (by rw [hsplit]; exact hes) with htake | hdrop
    · have hpos : 0 < ((List.insertionSort (fun a b => a.mtime ≤ b.mtime) s).drop
          ((List.insertionSort (fun a b => a.mtime ≤ b.mtime) s).length - n)).length := by
        rw [List.length_drop]
        omega
      obtain ⟨y, hy⟩ := List.exists_mem_of_length_pos hpos
      have hys : y ∈ s :=
        (List.perm_insertionSort _ s).mem_iff.mp (List.mem_of_mem_drop hy)
      rw [← hsplit] at hsorted
      have hle : e.mtime ≤ y.mtime := (List.pairwise_append.mp hsorted).2.2 e htake y hy
      rcases hmax y hys with rfl | hlt
      · exact hy
      · exact absurd hle (by omega)
    · exact hdrop
  · simp only [deleteOldestFiles]
    rw [if_neg hc]
    exact he

/-! ## Helper lemmas: the handler and the completion loop -/

theorem handleFunctionCall_ghost (cfg : Cfg) (st : St) (name arguments : String) :
    (handleFunctionCall cfg st name arguments).2.1.store = st.store ∧
    (handleFunctionCall cfg st name arguments).2.1.trace = st.trace ∧
    (handleFunctionCall cfg st name arguments).2.1.clock = st.clock ∧
    (handleFunctionCall cfg st name arguments).2.1.streams = st.streams ∧
    (handleFunctionCall cfg st name arguments).2.1.closed = st.closed := by
  simp only [handleFunctionCall]
  repeat' split
  all_goals simp

theorem handleFunctionCall_ok_marker (cfg : Cfg) (st : St) (name arguments : String)
    (ys : List String) (st' : St)
    (h : handleFunctionCall cfg st name arguments = (ys, st', .ok)) :
    containsMarker (concatAll ys) = true := by
  simp only [handleFunctionCall] at h
  split at h
  · simp at h
  · split at h
    · simp at h
    · split at h
      · split at h
        · simp at h
        · simp only [Prod.mk.injEq] at h
          rcases h with ⟨hys, -, -⟩
          subst hys
          rw [concatAll_append, concatAll_cons, concatAll_cons, concatAll_cons, concatAll_cons]
          apply containsMarker_append_left
          apply containsMarker_append_right
          apply containsMarker_append_right
          apply containsMarker_append_left
          apply containsMarker_append_left
          apply containsMarker_append_left
          apply containsMarker_append_left
          apply containsMarker_append_left
          decide
      · simp only [Prod.mk.injEq] at h
        rcases h with ⟨hys, -, -⟩
        subst hys
        rw [concatAll_cons, concatAll_cons, concatAll_cons, concatAll_cons, concatAll_cons]
        apply containsMarker_append_right
        apply containsMarker_append_right
        apply containsMarker_append_left
        apply containsMarker_append_left
        apply containsMarker_append_left
        apply containsMarker_append_left
        apply containsMarker_append_left
        decide

theorem handleFunctionCall_decline (cfg : Cfg) (st : St) (name arguments : String)
    (dictArgs : List (String × String)) (raw : String) (restIn : List String)
    (hparse : cfg.parse arguments = some dictArgs)
    (hinputs : st.inputs = raw :: restIn)
    (hno : strStrip (strLower raw) ≠ "y") :
    handleFunctionCall cfg st name arguments =
      (["\n", "Are you sure you want to run this function? [y/n]:\n ",
        "> @FunctionCall `" ++ name ++ "(" ++ joinDictArgs dictArgs ++ ")` \n\n",
        strStrip (strLower raw) ++ "\n", "Function call aborted by user.\n"],
       {st with inputs := restIn,
                messages := st.messages ++ [.funcNameContent name declineContent]}, .ok) := by
  simp only [handleFunctionCall, hparse, hinputs]
  rw [if_neg hno]

theorem completeChunks_ghost (cfg : Cfg) (st : St) :
    ∀ (chunks : List Chunk) (name arguments : String),
      (completeChunks cfg st chunks name arguments).st.store = st.store ∧
      (completeChunks cfg st chunks name arguments).st.trace = st.trace ∧
      (completeChunks cfg st chunks name arguments).st.clock = st.clock ∧
      (completeChunks cfg st chunks name arguments).st.streams = st.streams := by
  intro chunks
  induction chunks with
  | nil => intro name arguments; simp [completeChunks, StepRes.st]
  | cons c rest ih =>
    intro name arguments
    cases c with
    | interrupt => simp [completeChunks, StepRes.st]
    | data content tcs fin =>
      simp only [completeChunks]
      split
      · split
        · rename_i ys1 st1 heq
          have hg := handleFunctionCall_ghost cfg st
            ((tcs.foldl accumToolCall (name, arguments)).1)
            ((tcs.foldl accumToolCall (name, arguments)).2)
          rw [heq] at hg
          split <;> exact ⟨hg.1, hg.2.1, hg.2.2.1, hg.2.2.2.1⟩
        · rename_i ys1 st1 o1 heq
          have hg := handleFunctionCall_ghost cfg st
            ((tcs.foldl accumToolCall (name, arguments)).1)
            ((tcs.foldl accumToolCall (name, arguments)).2)
          rw [heq] at hg
          exact ⟨hg.1, hg.2.1, hg.2.2.1, hg.2.2.2.1⟩
      · have := ih ((tcs.foldl accumToolCall (name, arguments)).1)
          ((tcs.foldl accumToolCall (name, arguments)).2)
        rcases hr : completeChunks cfg st rest
            ((tcs.foldl accumToolCall (name, arguments)).1)
            ((tcs.foldl accumToolCall (name, arguments)).2) with ⟨ys1, st1, o1⟩ | ⟨ys1, st1⟩ <;>
          rw [hr] at this <;> simpa [StepRes.st] using this

theorem completeChunks_resume_marker (cfg : Cfg) (st : St) :
    ∀ (chunks : List Chunk) (name arguments : String) (ys : List String) (st1 : St),
      completeChunks cfg st chunks name arguments = .resume ys st1 →
      containsMarker (concatAll ys) = true := by
  intro chunks
  induction chunks with
  | nil => intro name arguments ys st1 h; exact absurd h (by simp [completeChunks])
  | cons c rest ih =>
    intro name arguments ys st1 h
    cases c with
    | interrupt => exact absurd h (by simp [completeChunks])
    | data content tcs fin =>
      simp only [completeChunks] at h
      split at h
      · split at h
        · rename_i ys2 st2 heq
          split at h
          · cases h
          · cases h
            exact handleFunctionCall_ok_marker _ _ _ _ _ _ heq
        · cases h
      · split at h
        · cases h
        · rename_i ys2 st2 heq
          cases h
          rw [concatAll_cons]
          exact containsMarker_append_right _ _ (ih _ _ _ _ heq)

theorem completeChunks_pre_interrupt (cfg : Cfg) (st : St) :
    ∀ (pre rest : List Chunk) (name arguments : String),
      (∀ c ∈ pre, plainChunk c = true) →
      completeChunks cfg st (pre ++ .interrupt :: rest) name arguments =
        .done (pre.map chunkText) {st with closed := st.closed + 1} .ok := by
  intro pre
  induction pre with
  | nil => intro rest name arguments _; rfl
  | cons c pre ih =>
    intro rest name arguments hplain
    cases c with
    | interrupt => exact absurd (hplain _ (List.mem_cons_self _ _)) (by simp [plainChunk])
    | data content tcs fin =>
      have hfin : ¬(fin = some "tool_calls") := by
        have := hplain _ (List.mem_cons_self _ _)
        simpa [plainChunk] using this
      simp only [List.cons_append, completeChunks, if_neg hfin, List.append_eq]
      rw [ih rest _ _ (fun c hc => hplain c (List.mem_cons_of_mem _ hc))]
      simp [chunkText]

theorem getCompletion_hit (cfg : Cfg) (fuelLeft : Nat) (p : Prm) (st : St) (body : String)
    (hc : p.caching = true)
    (hl : lookupStore (requestKey cfg p st.messages) st.store = some body) :
    getCompletion cfg (fuelLeft + 1) p st =
      ([body], {st with trace := st.trace ++ [(requestKey cfg p st.messages, p.caching)]},
       .ok) := by
  simp only [getCompletion, hc, hl]

theorem getCompletion_done_ok (cfg : Cfg) (fuelLeft : Nat) (p : Prm) (st0 : St)
    (s : List Chunk) (restStreams : List (List Chunk)) (ys : List String) (st1 : St)
    (hmiss : p.caching = true → lookupStore (requestKey cfg p st0.messages) st0.store = none)
    (hstreams : st0.streams = s :: restStreams)
    (hcc : completeChunks cfg
        {st0 with trace := st0.trace ++ [(requestKey cfg p st0.messages, p.caching)],
                  streams := restStreams} s "" "" = .done ys st1 .ok) :
    getCompletion cfg (fuelLeft + 1) p st0 =
      (ys, cacheFinish cfg (requestKey cfg p st0.messages) ys st1, .ok) := by
  cases hp : p.caching with
  | false =>
    rw [hp] at hcc
    simp only [getCompletion, hp, hstreams, hcc]
  | true =>
    rw [hp] at hcc
    simp only [getCompletion, hp, hmiss hp, hstreams, hcc]

theorem getCompletion_done_exn (cfg : Cfg) (fuelLeft : Nat) (p : Prm) (st0 : St)
    (s : List Chunk) (restStreams : List (List Chunk)) (ys : List String) (st1 : St)
    (hmiss : p.caching = true → lookupStore (requestKey cfg p st0.messages) st0.store = none)
    (hstreams : st0.streams = s :: restStreams)
    (hcc : completeChunks cfg
        {st0 with trace := st0.trace ++ [(requestKey cfg p st0.messages, p.caching)],
                  streams := restStreams} s "" "" = .done ys st1 .exn) :
    getCompletion cfg (fuelLeft + 1) p st0 = (ys, st1, .exn) := by
  cases hp : p.caching with
  | false =>
    rw [hp] at hcc
    simp only [getCompletion, hp, hstreams, hcc]
  | true =>
    rw [hp] at hcc
    simp only [getCompletion, hp, hmiss hp, hstreams, hcc]

theorem getCompletion_resume_ok (cfg : Cfg) (fuelLeft : Nat) (p : Prm) (st0 : St)
    (s : List Chunk) (restStreams : List (List Chunk)) (ys ys2 : List String) (st1 st2 : St)
    (hmiss : p.caching = true → lookupStore (requestKey cfg p st0.messages) st0.store = none)
    (hstreams : st0.streams = s :: restStreams)
    (hcc : completeChunks cfg
        {st0 with trace := st0.trace ++ [(requestKey cfg p st0.messages, p.caching)],
                  streams := restStreams} s "" "" = .resume ys st1)
    (hgc : getCompletion cfg fuelLeft
        ⟨p.model, p.temperature, p.topP,
         (if cfg.shellLike then none else p.functions), false⟩ st1 = (ys2, st2, .ok)) :
    getCompletion cfg (fuelLeft + 1) p st0 =
      (ys ++ ys2, cacheFinish cfg (requestKey cfg p st0.messages) (ys ++ ys2) st2, .ok) := by
  cases hp : p.caching with
  | false =>
    rw [hp] at hcc
    simp only [getCompletion, hp, hstreams, hcc, hgc]
  | true =>
    rw [hp] at hcc
    simp only [getCompletion, hp, hmiss hp, hstreams, hcc, hgc]

theorem getCompletion_resume_exn (cfg : Cfg) (fuelLeft : Nat) (p : Prm) (st0 : St)
    (s : List Chunk) (restStreams : List (List Chunk)) (ys ys2 : List String) (st1 st2 : St)
    (o2 : Outcome)
    (hmiss : p.caching = true → lookupStore (requestKey cfg p st0.messages) st0.store = none)
    (hstreams : st0.streams = s :: restStreams)
    (hcc : completeChunks cfg
        {st0 with trace := st0.trace ++ [(requestKey cfg p st0.messages, p.caching)],
                  streams := restStreams} s "" "" = .resume ys st1)
    (hgc : getCompletion cfg fuelLeft
        ⟨p.model, p.temperature, p.topP,
         (if cfg.shellLike then none else p.functions), false⟩ st1 = (ys2, st2, o2))
    (ho : o2 ≠ .ok) :
    getCompletion cfg (fuelLeft + 1) p st0 = (ys ++ ys2, st2, o2) := by
  cases o2 with
  | ok => exact absurd rfl ho
  | exn =>
    cases hp : p.caching with
    | false =>
      rw [hp] at hcc
      simp only [getCompletion, hp, hstreams, hcc, hgc]
    | true =>
      rw [hp] at hcc
      simp only [getCompletion, hp, hmiss hp, hstreams, hcc, hgc]
  | fuel =>
    cases hp : p.caching with
    | false =>
      rw [hp] at hcc
      simp only [getCompletion, hp, hstreams, hcc, hgc]
    | true =>
      rw [hp] at hcc
      simp only [getCompletion, hp, hmiss hp, hstreams, hcc, hgc]

theorem getCompletion_ok_shape (cfg : Cfg) (fuelLeft : Nat) (p : Prm) (st0 : St)
    (ys : List String) (st' : St)
    (h : getCompletion cfg (fuelLeft + 1) p st0 = (ys, st', .ok))
    (hmiss : p.caching = true → lookupStore (requestKey cfg p st0.messages) st0.store = none) :
    ∃ stMid, st' = cacheFinish cfg (requestKey cfg p st0.messages) ys stMid := by
  have main : ∀ hp : Bool, p.caching = hp →
      ∃ stMid, st' = cacheFinish cfg (requestKey cfg p st0.messages) ys stMid := by
    intro hp hpc
    cases hp with
    | true =>
      simp only [getCompletion, hpc, hmiss hpc] at h
      rcases hs : st0.streams with _ | ⟨s, rest⟩
      · simp only [hs] at h
        simp at h
      · simp only [hs] at h
        rcases hcc : completeChunks cfg
            {st0 with trace := st0.trace ++ [(requestKey cfg p st0.messages, true)],
                      streams := rest} s "" "" with ⟨ys1, st1, o1⟩ | ⟨ys1, st1⟩
        · simp only [hcc] at h
          cases o1 with
          | ok =>
            simp only [Prod.mk.injEq] at h
            exact ⟨st1, h.2.1.symm ▸ (by rw [← h.1])⟩
          | exn => simp at h
          | fuel => simp at h
        · simp only [hcc] at h
          rcases hgc : getCompletion cfg fuelLeft
              ⟨p.model, p.temperature, p.topP,
               (if cfg.shellLike then none else p.functions), false⟩ st1 with ⟨ys2, st2, o2⟩
          simp only [hgc] at h
          cases o2 with
          | ok =>
            simp only [Prod.mk.injEq] at h
            exact ⟨st2, h.2.1.symm ▸ (by rw [← h.1])⟩
          | exn => simp at h
          | fuel => simp at h
    | false =>
      simp only [getCompletion, hpc] at h
      rcases hs : st0.streams with _ | ⟨s, rest⟩
      · simp only [hs] at h
        simp at h
      · simp only [hs] at h
        rcases hcc : completeChunks cfg
            {st0 with trace := st0.trace ++ [(requestKey cfg p st0.messages, false)],
                      streams := rest} s "" "" with ⟨ys1, st1, o1⟩ | ⟨ys1, st1⟩
        · simp only [hcc] at h
          cases o1 with
          | ok =>
            simp only [Prod.mk.injEq] at h
            exact ⟨st1, h.2.1.symm ▸ (by rw [← h.1])⟩
          | exn => simp at h
          | fuel => simp at h
        · simp only [hcc] at h
          rcases hgc : getCompletion cfg fuelLeft
              ⟨p.model, p.temperature, p.topP,
               (if cfg.shellLike then none else p.functions), false⟩ st1 with ⟨ys2, st2, o2⟩
          simp only [hgc] at h
          cases o2 with
          | ok =>
            simp only [Prod.mk.injEq] at h
            exact ⟨st2, h.2.1.symm ▸ (by rw [← h.1])⟩
          | exn => simp at h
          | fuel => simp at h
  exact main p.caching rfl

/-! ## Helper lemmas: the cache write tail and the ghost trace -/

theorem cacheFinish_marker (cfg : Cfg) (key : String) (ys : List String) (st : St)
    (h : containsMarker (concatAll ys) = true) :
    cacheFinish cfg key ys st = {st with store := deleteOldestFiles cfg.cacheLen st.store} := by
  simp [cacheFinish, h]

theorem cacheFinish_write (cfg : Cfg) (key : String) (ys : List String) (st : St)
    (h : containsMarker (concatAll ys) = false) :
    cacheFinish cfg key ys st =
      { st with
        store := deleteOldestFiles cfg.cacheLen
          (writeStore key (concatAll ys) st.clock st.store)
        clock := st.clock + 1 } := by
  simp [cacheFinish, h]

theorem writeStore_self_mem (key body : String) (clock : Nat) (store : List Entry) :
    (⟨key, body, clock⟩ : Entry) ∈ writeStore key body clock store := by
  simp [writeStore]

theorem writeStore_mem_cases (key body : String) (clock : Nat) (store : List Entry) :
    ∀ e ∈ writeStore key body clock store, e = ⟨key, body, clock⟩ ∨ e ∈ store := by
  intro e he
  rcases List.mem_append.mp he with hf | hs
  · exact Or.inr (List.mem_of_mem_filter hf)
  · exact Or.inl (by simpa using hs)

theorem writeStore_key_unique (key body : String) (clock : Nat) (store : List Entry) :
    ∀ e ∈ writeStore key body clock store, e.key = key → e = ⟨key, body, clock⟩ := by
  intro e he hk
  rcases List.mem_append.mp he with hf | hs
  · have := List.of_mem_filter hf
    rw [hk] at this
    simp at this
  · simpa using hs

theorem cacheFinish_persists (cfg : Cfg) (key : String) (ys : List String) (st : St)
    (h : containsMarker (concatAll ys) = false)
    (hwf : ∀ x ∈ st.store, x.mtime < st.clock)
    (hcap : 1 ≤ cfg.cacheLen) :
    (⟨key, concatAll ys, st.clock⟩ : Entry) ∈ (cacheFinish cfg key ys st).store := by
  rw [cacheFinish_write cfg key ys st h]
  apply mem_deleteOldestFiles_newest _ _ _ (writeStore_self_mem _ _ _ _) _ hcap
  intro x hx
  rcases writeStore_mem_cases _ _ _ _ x hx with rfl | hxs
  · exact Or.inl rfl
  · exact Or.inr (hwf x hxs)

theorem cacheFinish_trace (cfg : Cfg) (key : String) (ys : List String) (st : St) :
    (cacheFinish cfg key ys st).trace = st.trace := by
  simp only [cacheFinish]
  split <;> rfl

theorem getCompletion_trace (cfg : Cfg) :
    ∀ (fuel : Nat) (p : Prm) (st : St),
      ∃ l, (getCompletion cfg fuel p st).2.1.trace = st.trace ++ l ∧
        (l = [] ∨ ∃ l', l = (requestKey cfg p st.messages, p.caching) :: l' ∧
          ∀ e ∈ l', e.2 = false) := by
  intro fuel
  induction fuel with
  | zero => intro p st; exact ⟨[], by simp [getCompletion], Or.inl rfl⟩
  | succ fuelLeft ih =>
    intro p st
    by_cases hhit : p.caching = true ∧
        ∃ body, lookupStore (requestKey cfg p st.messages) st.store = some body
    · obtain ⟨hc, body, hl⟩ := hhit
      rw [getCompletion_hit cfg fuelLeft p st body hc hl]
      exact ⟨[(requestKey cfg p st.messages, p.caching)], by simp, Or.inr ⟨[], rfl, by simp⟩⟩
    · have hmiss : p.caching = true →
          lookupStore (requestKey cfg p st.messages) st.store = none := by
        intro hc
        rcases hl : lookupStore (requestKey cfg p st.messages) st.store with _ | body
        · rfl
        · exact absurd ⟨hc, body, hl⟩ hhit
      rcases hs : st.streams with _ | ⟨s, restStreams⟩
      · -- transport failure: the trace still got its entry
        have : getCompletion cfg (fuelLeft + 1) p st =
            ([], {st with trace := st.trace ++ [(requestKey cfg p st.messages, p.caching)]},
             .exn) := by
          cases hp : p.caching with
          | false => simp only [getCompletion, hp, hs]
          | true => simp only [getCompletion, hp, hmiss hp, hs]
        rw [this]
        exact ⟨[(requestKey cfg p st.messages, p.caching)], by simp,
          Or.inr ⟨[], rfl, by simp⟩⟩
      · rcases hcc : completeChunks cfg
            {st with trace := st.trace ++ [(requestKey cfg p st.messages, p.caching)],
                     streams := restStreams} s "" "" with ⟨ys1, st1, o1⟩ | ⟨ys1, st1⟩
        · have htr : st1.trace = st.trace ++ [(requestKey cfg p st.messages, p.caching)] := by
            have := (completeChunks_ghost cfg
              {st with trace := st.trace ++ [(requestKey cfg p st.messages, p.caching)],
                       streams := restStreams} s "" "").2.1
            rw [hcc] at this
            simpa [StepRes.st] using this
          cases o1 with
          | ok =>
            rw [getCompletion_done_ok cfg fuelLeft p st s restStreams ys1 st1 hmiss hs hcc]
            refine ⟨[(requestKey cfg p st.messages, p.caching)], ?_, Or.inr ⟨[], rfl, by simp⟩⟩
            simp [cacheFinish_trace, htr]
          | exn =>
            rw [getCompletion_done_exn cfg fuelLeft p st s restStreams ys1 st1 hmiss hs hcc]
            exact ⟨[(requestKey cfg p st.messages, p.caching)], by simp [htr],
              Or.inr ⟨[], rfl, by simp⟩⟩
          | fuel =>
            have : getCompletion cfg (fuelLeft + 1) p st = (ys1, st1, .fuel) := by
              cases hp : p.caching with
              | false =>
                rw [hp] at hcc
                simp only [getCompletion, hp, hs, hcc]
              | true =>
                rw [hp] at hcc
                simp only [getCompletion, hp, hmiss hp, hs, hcc]
            rw [this]
            exact ⟨[(requestKey cfg p st.messages, p.caching)], by simp [htr],
              Or.inr ⟨[], rfl, by simp⟩⟩
        · have htr : st1.trace = st.trace ++ [(requestKey cfg p st.messages, p.caching)] := by
            have := (completeChunks_ghost cfg
              {st with trace := st.trace ++ [(requestKey cfg p st.messages, p.caching)],
                       streams := restStreams} s "" "").2.1
            rw [hcc] at this
            simpa [StepRes.st] using this
          rcases hgc : getCompletion cfg fuelLeft
              ⟨p.model, p.temperature, p.topP,
               (if cfg.shellLike then none else p.functions), false⟩ st1 with ⟨ys2, st2, o2⟩
          obtain ⟨l2, hl2, hl2s⟩ := ih
            ⟨p.model, p.temperature, p.topP,
             (if cfg.shellLike then none else p.functions), false⟩ st1
          rw [hgc] at hl2
          have hl2' : st2.trace = st.trace ++
              ((requestKey cfg p st.messages, p.caching) :: l2) := by
            simp only at hl2
            rw [hl2, htr, List.append_assoc]
            rfl
          have hallfalse : ∀ e ∈ l2, e.2 = false := by
            rcases hl2s with rfl | ⟨l', rfl, hl'⟩
            · intro e he; cases he
            · intro e he
              rcases List.mem_cons.mp he with rfl | hm
              · rfl
              · exact hl' e hm
          cases o2 with
          | ok =>
            rw [getCompletion_resume_ok cfg fuelLeft p st s restStreams ys1 ys2 st1 st2
              hmiss hs hcc hgc]
            refine ⟨(requestKey cfg p st.messages, p.caching) :: l2, ?_,
              Or.inr ⟨l2, rfl, hallfalse⟩⟩
            simp [cacheFinish_trace, hl2']
          | exn =>
            rw [getCompletion_resume_exn cfg fuelLeft p st s restStreams ys1 ys2 st1 st2
              .exn hmiss hs hcc hgc (by simp)]
            exact ⟨(requestKey cfg p st.messages, p.caching) :: l2, by simp [hl2'],
              Or.inr ⟨l2, rfl, hallfalse⟩⟩
          | fuel =>
            rw [getCompletion_resume_exn cfg fuelLeft p st s restStreams ys1 ys2 st1 st2
              .fuel hmiss hs hcc hgc (by simp)]
            exact ⟨(requestKey cfg p st.messages, p.caching) :: l2, by simp [hl2'],
              Or.inr ⟨l2, rfl, hallfalse⟩⟩

/-! ## Claims C2, C3, C5 -/

/-- Claim C2 (confirmed): a body produced by the wrapped completion call is
never persisted when it contains the tool-call marker — the store can only
shrink by eviction — while a marker-free body is persisted (under strictly
increasing timestamps and positive capacity, the fresh entry survives the
eviction pass); and every normally completed non-hit call ends by applying
exactly this write/eviction tail to the fully streamed and forwarded
fragments. -/
theorem C2_no_cache_on_tool_call :
    (∀ (cfg : Cfg) (key : String) (ys : List String) (st : St),
      (containsMarker (concatAll ys) = true →
        (cacheFinish cfg key ys st).store = deleteOldestFiles cfg.cacheLen st.store ∧
        ∀ e ∈ (cacheFinish cfg key ys st).store, e ∈ st.store) ∧
      (containsMarker (concatAll ys) = false →
        (∀ x ∈ st.store, x.mtime < st.clock) → 1 ≤ cfg.cacheLen →
        (⟨key, concatAll ys, st.clock⟩ : Entry) ∈ (cacheFinish cfg key ys st).store)) ∧
    (∀ (cfg : Cfg) (fuelLeft : Nat) (p : Prm) (st : St) (ys : List String) (st' : St),
      getCompletion cfg (fuelLeft + 1) p st = (ys, st', .ok) →
      (p.caching = true → lookupStore (requestKey cfg p st.messages) st.store = none) →
      ∃ stMid, st' = cacheFinish cfg (requestKey cfg p st.messages) ys stMid) := by
  refine ⟨fun cfg key ys st => ⟨fun h => ⟨?_, ?_⟩, fun h hwf hcap => ?_⟩,
    fun cfg fuelLeft p st ys st' h hmiss =>
      getCompletion_ok_shape cfg fuelLeft p st ys st' h hmiss⟩
  · rw [cacheFinish_marker _ _ _ _ h]
  · rw [cacheFinish_marker _ _ _ _ h]
    exact deleteOldestFiles_subset _ _
  · exact cacheFinish_persists cfg key ys st h hwf hcap

/-- Claim C2 witness: a marker-free body is persisted into a prefilled store,
and the interrupted concrete run ends in the write/eviction tail. -/
theorem C2_witness :
    ((⟨"k", "hello", 1⟩ : Entry) ∈
      (cacheFinish cfgK "k" ["hello"] {stEmpty with store := [⟨"a", "b", 0⟩], clock := 1}).store) ∧
    ∃ stMid,
      ({ streams := [], inputs := [], messages := [.plain "user" "q"],
         store := [⟨"k", "Hello", 0⟩], clock := 1, closed := 1,
         trace := [("k", true)], toolLog := [] } : St) =
        cacheFinish cfgK (requestKey cfgK prmT stInterrupt.messages) ["Hello"] stMid := by
  constructor
  · exact (C2_no_cache_on_tool_call.1 cfgK "k" ["hello"]
      {stEmpty with store := [⟨"a", "b", 0⟩], clock := 1}).2 (by decide) (by decide) (by decide)
  · exact C2_no_cache_on_tool_call.2 cfgK 2 prmT stInterrupt ["Hello"] _ (by decide)
      (fun _ => rfl)

/-- Claim C3 (confirmed): with caching enabled and an entry stored under the
request fingerprint, the wrapped call yields exactly the stored body as a
single fragment and returns with the state untouched apart from the ghost
trace — in particular the scripted transport, tools and operator inputs are
never consumed, so the wrapped compute function is never invoked. -/
theorem C3_cache_hit :
    ∀ (cfg : Cfg) (fuelLeft : Nat) (p : Prm) (st : St) (body : String),
      p.caching = true →
      lookupStore (requestKey cfg p st.messages) st.store = some body →
      getCompletion cfg (fuelLeft + 1) p st =
        ([body],
         {st with trace := st.trace ++ [(requestKey cfg p st.messages, p.caching)]},
         .ok) :=
  getCompletion_hit

/-- Claim C3 witness: a concrete hit on a prefilled store. -/
theorem C3_witness :
    prmT.caching = true ∧
    lookupStore (requestKey cfgK prmT stEmpty.messages)
      [(⟨"k", "cached", 0⟩ : Entry)] = some "cached" ∧
    getCompletion cfgK 1 prmT {stEmpty with store := [⟨"k", "cached", 0⟩]} =
      (["cached"],
       { streams := [], inputs := [], messages := [.plain "user" "q"],
         store := [⟨"k", "cached", 0⟩], clock := 0, closed := 0,
         trace := [("k", true)], toolLog := [] }, .ok) := by
  refine ⟨rfl, by decide, ?_⟩
  exact C3_cache_hit cfgK 0 prmT {stEmpty with store := [⟨"k", "cached", 0⟩]} "cached"
    rfl (by decide)

/-- Claim C5 (confirmed): after eviction the number of stored entries never
exceeds the capacity; when the count exceeds the capacity the removed
entries number exactly count minus capacity and each has a modification time
no newer than every kept entry's; and every normally completed non-hit
wrapped call (in particular every call that wrote) leaves at most capacity
entries. -/
theorem C5_eviction_bound :
    (∀ (n : Nat) (s : List Entry), (deleteOldestFiles n s).length ≤ n) ∧
    (∀ (n : Nat) (s : List Entry), n < s.length →
      ∃ removed, s.Perm (removed ++ deleteOldestFiles n s) ∧
        removed.length = s.length - n ∧
        ∀ r ∈ removed, ∀ k ∈ deleteOldestFiles n s, r.mtime ≤ k.mtime) ∧
    (∀ (cfg : Cfg) (fuelLeft : Nat) (p : Prm) (st : St) (ys : List String) (st' : St),
      getCompletion cfg (fuelLeft + 1) p st = (ys, st', .ok) →
      (p.caching = true → lookupStore (requestKey cfg p st.messages) st.store = none) →
      st'.store.length ≤ cfg.cacheLen) := by
  refine ⟨deleteOldestFiles_length_le, deleteOldestFiles_removed, ?_⟩
  intro cfg fuelLeft p st ys st' h hmiss
  obtain ⟨stMid, rfl⟩ := getCompletion_ok_shape cfg fuelLeft p st ys st' h hmiss
  by_cases hm : containsMarker (concatAll ys) = true
  · rw [cacheFinish_marker _ _ _ _ hm]
    exact deleteOldestFiles_length_le _ _
  · rw [cacheFinish_write _ _ _ _ (Bool.not_eq_true _ ▸ hm)]
    exact deleteOldestFiles_length_le _ _

/-- Claim C5 witness: a two-entry store over capacity one evicts exactly the
older entry, and the concrete interrupted run respects the capacity bound. -/
theorem C5_witness :
    (1 < ([⟨"a", "x", 5⟩, ⟨"b", "y", 3⟩] : List Entry).length ∧
      ∃ removed, ([⟨"a", "x", 5⟩, ⟨"b", "y", 3⟩] : List Entry).Perm
          (removed ++ deleteOldestFiles 1 [⟨"a", "x", 5⟩, ⟨"b", "y", 3⟩]) ∧
        removed.length = ([⟨"a", "x", 5⟩, ⟨"b", "y", 3⟩] : List Entry).length - 1 ∧
        ∀ r ∈ removed, ∀ k ∈ deleteOldestFiles 1 [⟨"a", "x", 5⟩, ⟨"b", "y", 3⟩],
          r.mtime ≤ k.mtime) ∧
    ({ streams := [], inputs := [], messages := [.plain "user" "q"],
       store := [⟨"k", "Hello", 0⟩], clock := 1, closed := 1,
       trace := [("k", true)], toolLog := [] } : St).store.length ≤ cfgK.cacheLen := by
  constructor
  · exact ⟨by decide, C5_eviction_bound.2.1 1 _ (by decide)⟩
  · exact C5_eviction_bound.2.2 cfgK 2 prmT stInterrupt ["Hello"] _ (by decide) (fun _ => rfl)

/-! ## Claims C1, C4, C6, C7, C8: amended statements -/

theorem accumToolCall_fst (frags : List ToolFrag) :
    ∀ acc : String × String,
      (frags.foldl accumToolCall acc).1 =
        (((frags.map ToolFrag.name).filter (fun n => n ≠ "")).getLast?).getD acc.1 := by
  induction frags with
  | nil => intro acc; rfl
  | cons f tl ih =>
    intro acc
    rw [List.foldl_cons, ih]
    by_cases hn : f.name = ""
    · have hacc : (accumToolCall acc f).1 = acc.1 := by simp [accumToolCall, hn]
      have hfil : (List.map ToolFrag.name (f :: tl)).filter (fun n => n ≠ "") =
          (List.map ToolFrag.name tl).filter (fun n => n ≠ "") := by
        simp [List.map_cons, List.filter_cons, hn]
      rw [hacc, hfil]
    · have hacc : (accumToolCall acc f).1 = f.name := by simp [accumToolCall, hn]
      have hf : (List.map ToolFrag.name (f :: tl)).filter (fun n => n ≠ "") =
          f.name :: (List.map ToolFrag.name tl).filter (fun n => n ≠ "") := by
        simp [List.map_cons, List.filter_cons, hn]
      rw [hacc, hf]
      rcases hfil : (List.map ToolFrag.name tl).filter (fun n => n ≠ "") with _ | ⟨x, xs⟩
      · simp
      · rw [List.getLast?_cons_cons]
        obtain ⟨v, hv⟩ := Option.isSome_iff_exists.mp
          (List.getLast?_isSome.mpr (by simp) : ((x :: xs).getLast?).isSome)
        rw [hv]
        rfl

theorem accumToolCall_snd (frags : List ToolFrag) :
    ∀ acc : String × String,
      (frags.foldl accumToolCall acc).2 =
        acc.2 ++ concatAll (frags.map ToolFrag.arguments) := by
  induction frags with
  | nil =>
    intro acc
    rw [List.map_nil]
    exact (String.append_empty acc.2).symm
  | cons f tl ih =>
    intro acc
    rw [List.foldl_cons, List.map_cons, concatAll_cons, ih]
    by_cases ha : f.arguments = ""
    · rw [show (accumToolCall acc f).2 = acc.2 from by simp [accumToolCall, ha], ha,
        String.empty_append]
    · rw [show (accumToolCall acc f).2 = acc.2 ++ f.arguments from by
        simp [accumToolCall, ha], String.append_assoc]

/-- Claim C8 as amended: over any fragment sequence the accumulated name is
the last truthy name fragment (the initial value only when none arrives),
and the accumulated argument string is exactly the concatenation of the
argument fragments in arrival order. -/
theorem C8_amended :
    ∀ (frags : List ToolFrag) (acc : String × String),
      frags.foldl accumToolCall acc =
        ((((frags.map ToolFrag.name).filter (fun n => n ≠ "")).getLast?).getD acc.1,
         acc.2 ++ concatAll (frags.map ToolFrag.arguments)) :=
  fun frags acc => Prod.ext (accumToolCall_fst frags acc) (accumToolCall_snd frags acc)

/-- Claim C7 as amended (the decline test is on the lowercased, stripped
input, not the raw input): whenever the operator's answer does not normalize
to `"y"`, `handle_function_call` appends exactly the decline record and
returns, and the chunk loop then ends the turn with no resumption — no
second completion request, no tool execution, and the history's last message
is the function-role decline sentinel. -/
theorem C7_amended :
    (∀ (cfg : Cfg) (st : St) (name arguments : String)
        (dictArgs : List (String × String)) (raw : String) (restIn : List String),
      cfg.parse arguments = some dictArgs →
      st.inputs = raw :: restIn →
      strStrip (strLower raw) ≠ "y" →
      handleFunctionCall cfg st name arguments =
        (["\n", "Are you sure you want to run this function? [y/n]:\n ",
          "> @FunctionCall `" ++ name ++ "(" ++ joinDictArgs dictArgs ++ ")` \n\n",
          strStrip (strLower raw) ++ "\n", "Function call aborted by user.\n"],
         {st with inputs := restIn,
                  messages := st.messages ++ [.funcNameContent name declineContent]}, .ok)) ∧
    (∀ (cfg : Cfg) (st : St) (content : Option String) (toolCalls : List ToolFrag)
        (rest : List Chunk) (name arguments : String)
        (dictArgs : List (String × String)) (raw : String) (restIn : List String),
      cfg.parse (toolCalls.foldl accumToolCall (name, arguments)).2 = some dictArgs →
      st.inputs = raw :: restIn →
      strStrip (strLower raw) ≠ "y" →
      completeChunks cfg st (.data content toolCalls (some "tool_calls") :: rest)
          name arguments =
        .done
          (["\n", "Are you sure you want to run this function? [y/n]:\n ",
            "> @FunctionCall `" ++ (toolCalls.foldl accumToolCall (name, arguments)).1 ++
              "(" ++ joinDictArgs dictArgs ++ ")` \n\n",
            strStrip (strLower raw) ++ "\n", "Function call aborted by user.\n"])
          {st with inputs := restIn,
                   messages := st.messages ++
                     [.funcNameContent (toolCalls.foldl accumToolCall (name, arguments)).1
                        declineContent]}
          .ok ∧
      (st.messages ++
        [Message.funcNameContent (toolCalls.foldl accumToolCall (name, arguments)).1
          declineContent]).getLast? =
        some (.funcNameContent (toolCalls.foldl accumToolCall (name, arguments)).1
          declineContent)) := by
  have hdecl : ∀ (msgs : List Message) (nm : String),
      declined (msgs ++ [.funcNameContent nm declineContent]) = true := by
    intro msgs nm
    simp [declined, List.getLast?_concat, Message.role, Message.content]
  refine ⟨handleFunctionCall_decline, ?_⟩
  intro cfg st content toolCalls rest name arguments dictArgs raw restIn hparse hinputs hno
  constructor
  · simp only [completeChunks, if_pos rfl]
    rw [handleFunctionCall_decline cfg st _ _ dictArgs raw restIn hparse hinputs hno]
    simp only [hdecl]
    rfl
  · simp [List.getLast?_concat]

/-- Claim C7 witness: a concrete declined call (answer `"n"`). -/
theorem C7_witness :
    cfgK.parse (([] : List ToolFrag).foldl accumToolCall ("list_files", "\x7b\x7d")).2 =
      some [] ∧
    ({stEmpty with inputs := ["n"]} : St).inputs = "n" :: [] ∧
    strStrip (strLower "n") ≠ "y" ∧
    completeChunks cfgK {stEmpty with inputs := ["n"]}
        [.data none [] (some "tool_calls")] "list_files" "\x7b\x7d" =
      .done
        (["\n", "Are you sure you want to run this function? [y/n]:\n ",
          "> @FunctionCall `" ++ (([] : List ToolFrag).foldl accumToolCall
            ("list_files", "\x7b\x7d")).1 ++ "(" ++ joinDictArgs [] ++ ")` \n\n",
          strStrip (strLower "n") ++ "\n", "Function call aborted by user.\n"])
        { streams := [], inputs := [], messages := [.plain "user" "q",
            .funcNameContent "list_files" declineContent],
          store := [], clock := 0, closed := 0, trace := [], toolLog := [] }
        .ok := by
  refine ⟨by decide, rfl, by decide, ?_⟩
  exact (C7_amended.2 cfgK {stEmpty with inputs := ["n"]} none [] [] "list_files"
    "\x7b\x7d" [] "n" [] (by decide) rfl (by decide)).1

/-- Claim C1 as amended: the follow-up completion request after a resolved
tool call is indeed issued with `caching=False` (first conjunct: every
wrapper entry beyond the turn's first records the flag `false`), but the
persistence is the reverse of the claim: a first leg that resumes after a
resolved tool call has the tool-call marker in its streamed body, so it is
never written — its wrapper pass leaves only the eviction step (second
conjunct) — while any leg whose body lacks the marker (such as a plain-text
continuation leg) is persisted (third conjunct). -/
theorem C1_amended :
    (∀ (cfg : Cfg) (fuel : Nat) (p : Prm) (st : St),
      ∃ l, (getCompletion cfg fuel p st).2.1.trace = st.trace ++ l ∧
        (l = [] ∨ ∃ l', l = (requestKey cfg p st.messages, p.caching) :: l' ∧
          ∀ e ∈ l', e.2 = false)) ∧
    (∀ (cfg : Cfg) (fuelLeft : Nat) (p : Prm) (st0 : St) (s : List Chunk)
        (restStreams : List (List Chunk)) (ys ys2 : List String) (st1 st2 : St),
      (p.caching = true → lookupStore (requestKey cfg p st0.messages) st0.store = none) →
      st0.streams = s :: restStreams →
      completeChunks cfg
          {st0 with trace := st0.trace ++ [(requestKey cfg p st0.messages, p.caching)],
                    streams := restStreams} s "" "" = .resume ys st1 →
      getCompletion cfg fuelLeft
          ⟨p.model, p.temperature, p.topP,
           (if cfg.shellLike then none else p.functions), false⟩ st1 = (ys2, st2, .ok) →
      getCompletion cfg (fuelLeft + 1) p st0 =
        (ys ++ ys2, {st2 with store := deleteOldestFiles cfg.cacheLen st2.store}, .ok)) ∧
    (∀ (cfg : Cfg) (key : String) (ys : List String) (st : St),
      containsMarker (concatAll ys) = false →
      (∀ x ∈ st.store, x.mtime < st.clock) → 1 ≤ cfg.cacheLen →
      (⟨key, concatAll ys, st.clock⟩ : Entry) ∈ (cacheFinish cfg key ys st).store) := by
  refine ⟨getCompletion_trace, ?_, cacheFinish_persists⟩
  intro cfg fuelLeft p st0 s restStreams ys ys2 st1 st2 hmiss hstreams hcc hgc
  rw [getCompletion_resume_ok cfg fuelLeft p st0 s restStreams ys ys2 st1 st2
    hmiss hstreams hcc hgc]
  have hm : containsMarker (concatAll (ys ++ ys2)) = true := by
    rw [concatAll_append]
    exact containsMarker_append_left _ _
      (completeChunks_resume_marker cfg _ s "" "" ys st1 hcc)
  rw [cacheFinish_marker _ _ _ _ hm]

/-- Claim C1 witness: in the concrete two-leg exchange the resumed first leg
is not persisted (only eviction runs on its wrapper pass) and the
continuation request runs with `caching=False`. -/
theorem C1_witness :
    stMulti.streams = legToolCall :: [legPlain] ∧
    completeChunks cfgK {stMulti with trace := [("k", true)], streams := [legPlain]}
        legToolCall "" "" =
      .resume ["", "\n", "Are you sure you want to run this function? [y/n]:\n ",
        "> @FunctionCall `list_files()` \n\n", "y\n"]
        { streams := [legPlain], inputs := [], messages := [.plain "user" "q",
            .assistantCall "list_files" "\x7b\x7d", .funcContentName "ok" "list_files"],
          store := [], clock := 0, closed := 0, trace := [("k", true)],
          toolLog := [("list_files", "\x7b\x7d")] } ∧
    getCompletion cfgK 3 prmT stMulti =
      (["", "\n", "Are you sure you want to run this function? [y/n]:\n ",
        "> @FunctionCall `list_files()` \n\n", "y\n"] ++ ["Result is 42.", ""],
       { streams := [], inputs := [], messages := [.plain "user" "q",
           .assistantCall "list_files" "\x7b\x7d", .funcContentName "ok" "list_files"],
         store := deleteOldestFiles cfgK.cacheLen [⟨"k", "Result is 42.", 0⟩], clock := 1,
         closed := 0, trace := [("k", true), ("k", false)],
         toolLog := [("list_files", "\x7b\x7d")] }, .ok) := by
  refine ⟨rfl, by decide, ?_⟩
  exact C1_amended.2.1 cfgK 2 prmT stMulti legToolCall [legPlain]
    ["", "\n", "Are you sure you want to run this function? [y/n]:\n ",
     "> @FunctionCall `list_files()` \n\n", "y\n"]
    ["Result is 42.", ""]
    { streams := [legPlain], inputs := [], messages := [.plain "user" "q",
        .assistantCall "list_files" "\x7b\x7d", .funcContentName "ok" "list_files"],
      store := [], clock := 0, closed := 0, trace := [("k", true)],
      toolLog := [("list_files", "\x7b\x7d")] }
    { streams := [], inputs := [], messages := [.plain "user" "q",
        .assistantCall "list_files" "\x7b\x7d", .funcContentName "ok" "list_files"],
      store := [⟨"k", "Result is 42.", 0⟩], clock := 1, closed := 0,
      trace := [("k", true), ("k", false)],
      toolLog := [("list_files", "\x7b\x7d")] }
    (fun _ => rfl) rfl (by decide) (by decide)

/-- Claim C4 as amended: a `caching=False` call ignores storage for reading —
for every store, in particular one already holding an entry under the key,
the wrapper forwards the compute result unchanged (first conjunct) — and the
write at the end of the wrapped call still occurs whenever the body lacks
the tool-call marker, overwriting any existing entry file for the key:
afterwards every entry under the key carries the new body (second
conjunct). -/
theorem C4_amended :
    (∀ (cfg : Cfg) (fuelLeft : Nat) (p : Prm) (st : St) (s : List Chunk)
        (restStreams : List (List Chunk)) (ys : List String) (st1 : St),
      p.caching = false →
      st.streams = s :: restStreams →
      completeChunks cfg
          {st with trace := st.trace ++ [(requestKey cfg p st.messages, p.caching)],
                   streams := restStreams} s "" "" = .done ys st1 .ok →
      getCompletion cfg (fuelLeft + 1) p st =
        (ys, cacheFinish cfg (requestKey cfg p st.messages) ys st1, .ok)) ∧
    (∀ (cfg : Cfg) (key : String) (ys : List String) (st : St),
      containsMarker (concatAll ys) = false →
      (cacheFinish cfg key ys st).store =
        deleteOldestFiles cfg.cacheLen (writeStore key (concatAll ys) st.clock st.store) ∧
      ∀ e ∈ (cacheFinish cfg key ys st).store, e.key = key → e.body = concatAll ys) := by
  constructor
  · intro cfg fuelLeft p st s restStreams ys st1 hcf hstreams hcc
    exact getCompletion_done_ok cfg fuelLeft p st s restStreams ys st1
      (fun hc => absurd (hcf.symm.trans hc) (by simp)) hstreams hcc
  · intro cfg key ys st hm
    constructor
    · rw [cacheFinish_write _ _ _ _ hm]
    · intro e he hk
      rw [cacheFinish_write _ _ _ _ hm] at he
      have he' := deleteOldestFiles_subset _ _ e he
      have := writeStore_key_unique key (concatAll ys) st.clock st.store e he' hk
      rw [this]

/-- Claim C4 witness: the prefilled-store scenario — the `caching=False` call
streams `"new"` and its wrapper pass overwrites the existing `("k", "old")`
entry. -/
theorem C4_witness :
    prmF.caching = false ∧
    stPrefilled.streams = [.data (some "new") [] none] :: [] ∧
    completeChunks cfgK {stPrefilled with trace := [("k", false)], streams := []}
        [.data (some "new") [] none] "" "" =
      .done ["new"]
        { streams := [], inputs := [], messages := [.plain "user" "q"],
          store := [⟨"k", "old", 0⟩], clock := 1, closed := 0, trace := [("k", false)],
          toolLog := [] } .ok ∧
    getCompletion cfgK 1 prmF stPrefilled =
      (["new"],
       cacheFinish cfgK (requestKey cfgK prmF stPrefilled.messages) ["new"]
         { streams := [], inputs := [], messages := [.plain "user" "q"],
           store := [⟨"k", "old", 0⟩], clock := 1, closed := 0, trace := [("k", false)],
           toolLog := [] }, .ok) := by
  refine ⟨rfl, rfl, by decide, ?_⟩
  exact C4_amended.1 cfgK 0 prmF stPrefilled [.data (some "new") [] none] [] ["new"]
    { streams := [], inputs := [], messages := [.plain "user" "q"],
      store := [⟨"k", "old", 0⟩], clock := 1, closed := 0, trace := [("k", false)],
      toolLog := [] } rfl rfl (by decide)

/-- Claim C6 as amended: an operator interrupt while pulling the stream
closes the transport stream, stops fragment production at the interrupt
point, and no exception propagates — the wrapped call returns normally —
but the wrapper then treats the partial body like any other: it is
persisted as a cache entry whenever it lacks the tool-call marker. -/
theorem C6_amended :
    ∀ (cfg : Cfg) (fuelLeft : Nat) (p : Prm) (st0 : St) (pre rest : List Chunk)
      (restStreams : List (List Chunk)),
      (∀ c ∈ pre, plainChunk c = true) →
      (p.caching = true → lookupStore (requestKey cfg p st0.messages) st0.store = none) →
      st0.streams = (pre ++ .interrupt :: rest) :: restStreams →
      getCompletion cfg (fuelLeft + 1) p st0 =
        (pre.map chunkText,
         cacheFinish cfg (requestKey cfg p st0.messages) (pre.map chunkText)
           {st0 with trace := st0.trace ++ [(requestKey cfg p st0.messages, p.caching)],
                     streams := restStreams, closed := st0.closed + 1},
         .ok) ∧
      (containsMarker (concatAll (pre.map chunkText)) = false →
        (∀ x ∈ st0.store, x.mtime < st0.clock) → 1 ≤ cfg.cacheLen →
        (⟨requestKey cfg p st0.messages, concatAll (pre.map chunkText), st0.clock⟩ : Entry) ∈
          (getCompletion cfg (fuelLeft + 1) p st0).2.1.store) := by
  intro cfg fuelLeft p st0 pre rest restStreams hplain hmiss hstreams
  have hcc := completeChunks_pre_interrupt cfg
    {st0 with trace := st0.trace ++ [(requestKey cfg p st0.messages, p.caching)],
              streams := restStreams} pre rest "" "" hplain
  have hrun := getCompletion_done_ok cfg fuelLeft p st0 (pre ++ .interrupt :: rest)
    restStreams (pre.map chunkText)
    {st0 with trace := st0.trace ++ [(requestKey cfg p st0.messages, p.caching)],
              streams := restStreams, closed := st0.closed + 1}
    hmiss hstreams (by exact hcc)
  refine ⟨hrun, fun hm hwf hcap => ?_⟩
  rw [hrun]
  exact cacheFinish_persists cfg _ _ _ hm hwf hcap

/-- Claim C6 witness: the concrete interrupted run — stream closed, normal
return, and the partial body `"Hello"` ends up in the store. -/
theorem C6_witness :
    (∀ c ∈ [Chunk.data (some "Hello") [] none], plainChunk c = true) ∧
    stInterrupt.streams =
      ([Chunk.data (some "Hello") [] none] ++
        .interrupt :: [.data (some " world") [] none]) :: [] ∧
    containsMarker (concatAll ([Chunk.data (some "Hello") [] none].map chunkText)) = false ∧
    (⟨requestKey cfgK prmT stInterrupt.messages,
      concatAll ([Chunk.data (some "Hello") [] none].map chunkText), stInterrupt.clock⟩ :
        Entry) ∈ (getCompletion cfgK 3 prmT stInterrupt).2.1.store := by
  refine ⟨by decide, rfl, by decide, ?_⟩
  exact (C6_amended cfgK 2 prmT stInterrupt [Chunk.data (some "Hello") [] none]
    [.data (some " world") [] none] [] (by decide) (fun _ => rfl) rfl).2
    (by decide) (by decide) (by decide)

/-! ## Round-trip of the serialized form: characters and strings -/

theorem hexVal_hexDig : ∀ d : Nat, d < 16 → hexVal (hexDig d) = d := by decide

theorem hex4_val (n : Nat) (h : n < 65536) :
    ((hexVal (hexDig (n / 4096 % 16)) * 16 + hexVal (hexDig (n / 256 % 16))) * 16 +
      hexVal (hexDig (n / 16 % 16))) * 16 + hexVal (hexDig (n % 16)) = n := by
  rw [hexVal_hexDig _ (by omega), hexVal_hexDig _ (by omega), hexVal_hexDig _ (by omega),
    hexVal_hexDig _ (by omega)]
  omega

theorem char_toNat_lt (c : Char) : c.toNat < 1114112 := by
  rcases c.valid with h | ⟨-, h⟩
  · exact Nat.lt_trans h (by norm_num)
  · exact h

theorem char_not_surrogate (c : Char) : c.toNat < 55296 ∨ 57343 < c.toNat := by
  rcases c.valid with h | ⟨h, -⟩
  · exact Or.inl h
  · exact Or.inr h

theorem decOne_escChar (c : Char) (r : List Char) :
    decOne (escChar c ++ r) = some (c, r) := by
  by_cases h1 : c = '"'
  · subst h1; rfl
  by_cases h2 : c = '\\'
  · subst h2; rfl
  by_cases h3 : c = '\n'
  · subst h3; rfl
  by_cases h4 : c = '\r'
  · subst h4; rfl
  by_cases h5 : c = '\t'
  · subst h5; rfl
  by_cases h6 : c = '\x08'
  · subst h6; rfl
  by_cases h7 : c = '\x0c'
  · subst h7; rfl
  by_cases h8 : c.toNat < 0x20 ∨ 0x7f ≤ c.toNat
  · by_cases h9 : c.toNat < 0x10000
    · have hesc : escChar c = '\\' :: 'u' :: hex4 c.toNat := by
        simp only [escChar, if_neg h1, if_neg h2, if_neg h3, if_neg h4, if_neg h5,
          if_neg h6, if_neg h7, if_pos h8, if_pos h9]
      rw [hesc]
      simp only [hex4, List.cons_append, List.nil_append, decOne]
      rw [hex4_val c.toNat h9]
      rcases char_not_surrogate c with hs | hs
      · rw [if_neg (by omega)]
        rw [Char.ofNat_toNat]
      · rw [if_neg (by omega)]
        rw [Char.ofNat_toNat]
    · have hlt := char_toNat_lt c
      have hesc : escChar c =
          ('\\' :: 'u' :: hex4 (0xd800 + (c.toNat - 0x10000) / 0x400)) ++
            '\\' :: 'u' :: hex4 (0xdc00 + (c.toNat - 0x10000) % 0x400) := by
        simp only [escChar, if_neg h1, if_neg h2, if_neg h3, if_neg h4, if_neg h5,
          if_neg h6, if_neg h7, if_pos h8, if_neg h9]
      rw [hesc]
      simp only [hex4, List.cons_append, List.nil_append, decOne]
      rw [hex4_val (0xd800 + (c.toNat - 0x10000) / 0x400) (by omega)]
      rw [if_pos (by constructor <;> omega)]
      rw [hex4_val (0xdc00 + (c.toNat - 0x10000) % 0x400) (by omega)]
      have harith : 0x10000 + (0xd800 + (c.toNat - 0x10000) / 0x400 - 0xd800) * 0x400 +
          (0xdc00 + (c.toNat - 0x10000) % 0x400 - 0xdc00) = c.toNat := by omega
      rw [harith, Char.ofNat_toNat]
  · have hesc : escChar c = [c] := by
      simp only [escChar, if_neg h1, if_neg h2, if_neg h3, if_neg h4, if_neg h5,
        if_neg h6, if_neg h7, if_neg h8]
    rw [hesc]
    rw [decOne.eq_def]
    split
    · rename_i heq; rw [List.cons_append] at heq; injection heq with ha hb; exact absurd ha h2
    · rename_i heq; rw [List.cons_append] at heq; injection heq with ha hb; exact absurd ha h2
    · rename_i heq; rw [List.cons_append] at heq; injection heq with ha hb; exact absurd ha h2
    · rename_i heq; rw [List.cons_append] at heq; injection heq with ha hb; exact absurd ha h2
    · rename_i heq; rw [List.cons_append] at heq; injection heq with ha hb; exact absurd ha h2
    · rename_i heq; rw [List.cons_append] at heq; injection heq with ha hb; exact absurd ha h2
    · rename_i heq; rw [List.cons_append] at heq; injection heq with ha hb; exact absurd ha h2
    · rename_i heq; rw [List.cons_append] at heq; injection heq with ha hb; exact absurd ha h2
    · rename_i heq; rw [List.cons_append] at heq; injection heq with ha hb; exact absurd ha h2
    · rename_i heq; rw [List.cons_append] at heq; injection heq with ha hb; exact absurd ha h1
    · rename_i heq; rw [List.cons_append] at heq; injection heq with ha hb
      subst ha; subst hb; rfl
    · rename_i heq; rw [List.cons_append] at heq; cases heq

theorem escChar_length_pos (c : Char) : 1 ≤ (escChar c).length := by
  simp only [escChar]
  repeat' split
  all_goals simp [hex4]

theorem escList_length (s : List Char) : s.length ≤ (escList s).length := by
  induction s with
  | nil => simp [escList]
  | cons c cs ih =>
    simp only [escList, List.length_append, List.length_cons]
    have := escChar_length_pos c
    omega

theorem escChar_head_ne (c : Char) : ∀ a t, escChar c = a :: t → a ≠ '"' := by
  simp only [escChar]
  repeat' split
  all_goals intro a t h
  all_goals first
    | (simp only [List.cons.injEq] at h; rcases h with ⟨rfl, -⟩; decide)
    | (rename_i hcase
       simp only [hex4, List.cons_append, List.cons.injEq] at h
       rcases h with ⟨rfl, -⟩
       decide)
    | (rename_i h1 h2 h3 h4 h5 h6 h7 hcase
       simp only [List.cons.injEq] at h
       rcases h with ⟨rfl, -⟩
       exact h1)

theorem decStr_escList (s : List Char) : ∀ (f : Nat) (r : List Char),
    s.length + 1 ≤ f → decStr f (escList s ++ '"' :: r) = some (s, r) := by
  induction s with
  | nil =>
    intro f r hf
    obtain ⟨f', rfl⟩ : ∃ f', f = f' + 1 := ⟨f - 1, by omega⟩
    rfl
  | cons c cs ih =>
    intro f r hf
    obtain ⟨f', rfl⟩ : ∃ f', f = f' + 1 := ⟨f - 1, by omega⟩
    simp only [List.length_cons] at hf
    obtain ⟨a, t, hat⟩ : ∃ a t, escChar c = a :: t := by
      rcases he : escChar c with _ | ⟨a, t⟩
      · have := escChar_length_pos c
        rw [he] at this
        simp at this
      · exact ⟨a, t, rfl⟩
    have hane : a ≠ '"' := escChar_head_ne c a t hat
    have hshape : escList (c :: cs) ++ '"' :: r =
        a :: (t ++ (escList cs ++ '"' :: r)) := by
      simp only [escList, hat, List.cons_append, List.append_assoc]
    rw [hshape]
    simp only [decStr, if_neg hane]
    have hdec : decOne (a :: (t ++ (escList cs ++ '"' :: r))) =
        some (c, escList cs ++ '"' :: r) := by
      have := decOne_escChar c (escList cs ++ '"' :: r)
      rw [hat] at this
      simpa [List.cons_append, List.append_assoc] using this
    rw [hdec]
    show (decStr f' (escList cs ++ '"' :: r)).map
        (fun q => (c :: q.1, q.2)) = some (c :: cs, r)
    rw [ih f' r (by omega)]
    rfl

theorem spanNum_append (s : List Char) (hs : ∀ c ∈ s, isNumChar c = true) :
    ∀ r, (r = [] ∨ ∃ c t, r = c :: t ∧ isNumChar c = false) →
      spanNum (s ++ r) = (s, r) := by
  induction s with
  | nil =>
    intro r hr
    rcases hr with rfl | ⟨c, t, rfl, hc⟩
    · rfl
    · simp [spanNum, hc]
  | cons c cs ih =>
    intro r hr
    have hc := hs c (List.mem_cons_self _ _)
    simp only [List.cons_append, spanNum, hc, if_pos, List.append_eq]
    rw [ih (fun x hx => hs x (List.mem_cons_of_mem _ hx)) r hr]

theorem numOk_cons (v : J) (c : Char) (t : List Char) (hc : isNumChar c = false) :
    numOk v (c :: t) := by
  cases v <;> simp [numOk, hc]

/-! ## Round-trip of the serialized form: values -/

theorem sizeJ_pos (v : J) : 1 ≤ sizeJ v := by
  cases v <;> simp [sizeJ]

theorem sizeJL_pos (l : JList) : 1 ≤ sizeJL l := by
  cases l <;> simp [sizeJL]

theorem sizeJO_pos (l : JObj) : 1 ≤ sizeJO l := by
  cases l <;> simp [sizeJO]

theorem numStart_ne (c : Char) (h : isNumStart c = true) :
    c ≠ 'n' ∧ c ≠ 't' ∧ c ≠ 'f' ∧ c ≠ '"' ∧ c ≠ '[' ∧ c ≠ '\x7b' ∧
      c ≠ ']' ∧ c ≠ '\x7d' := by
  simp only [isNumStart, Bool.or_eq_true, decide_eq_true_eq] at h
  rcases h with ((hd | rfl) | rfl) | rfl
  · refine ⟨?_, ?_, ?_, ?_, ?_, ?_, ?_, ?_⟩ <;> intro heq <;> subst heq <;>
      exact absurd hd (by decide)
  · decide
  · decide
  · decide

theorem dumpJ_head (v : J) (h : wfJ v = true) :
    ∃ a t, dumpJ v = a :: t ∧ a ≠ ']' ∧ a ≠ '\x7d' := by
  cases v with
  | null => exact ⟨'n', ['u', 'l', 'l'], rfl, by decide, by decide⟩
  | bool b =>
    cases b with
    | false => exact ⟨'f', ['a', 'l', 's', 'e'], rfl, by decide, by decide⟩
    | true => exact ⟨'t', ['r', 'u', 'e'], rfl, by decide, by decide⟩
  | num s =>
    simp only [wfJ] at h
    rcases hs : s.data with _ | ⟨c, cs⟩
    · exfalso
      simp [numRepr, hs] at h
    · have h' : isNumStart c = true := by
        simp only [numRepr, hs, Bool.and_eq_true] at h
        exact h.1
      obtain ⟨-, -, -, -, -, -, hne1, hne2⟩ := numStart_ne c h'
      exact ⟨c, cs, by simp [dumpJ, hs], hne1, hne2⟩
  | str s => exact ⟨'"', escList s.data ++ ['"'], rfl, by decide, by decide⟩
  | arr l => exact ⟨'[', dumpJList l ++ [']'], rfl, by decide, by decide⟩
  | obj l => exact ⟨'\x7b', dumpJObj l ++ ['\x7d'], rfl, by decide, by decide⟩

theorem parse_roundtrip : ∀ f : Nat,
    (∀ (v : J) (r : List Char), wfJ v = true → sizeJ v ≤ f → numOk v r →
      parseJ f (dumpJ v ++ r) = some (v, r)) ∧
    (∀ (l : JList) (r : List Char), wfJL l = true → l ≠ .nil → sizeJL l ≤ f →
      parseJList f (dumpJList l ++ ']' :: r) = some (l, r)) ∧
    (∀ (l : JObj) (r : List Char), wfJO l = true → l ≠ .nil → sizeJO l ≤ f →
      parseJObj f (dumpJObj l ++ '\x7d' :: r) = some (l, r)) := by
  intro f
  induction f with
  | zero =>
    refine ⟨fun v r _ h2 _ => ?_, fun l r _ _ h2 => ?_, fun l r _ _ h2 => ?_⟩
    · exact absurd h2 (by have := sizeJ_pos v; omega)
    · exact absurd h2 (by have := sizeJL_pos l; omega)
    · exact absurd h2 (by have := sizeJO_pos l; omega)
  | succ f ih =>
    obtain ⟨ihJ, ihL, ihO⟩ := ih
    refine ⟨?_, ?_, ?_⟩
    · intro v r hwf hsz hnum
      cases v with
      | null => simp [dumpJ, parseJ]
      | bool b => cases b <;> simp [dumpJ, parseJ]
      | num s =>
        simp only [wfJ] at hwf
        rcases hs : s.data with _ | ⟨c, cs⟩
        · exfalso
          simp [numRepr, hs] at hwf
        · have hstart : isNumStart c = true := by
            simp only [numRepr, hs, Bool.and_eq_true] at hwf
            exact hwf.1
          have hall : ∀ x ∈ c :: cs, isNumChar x = true := by
            have h2 : (c :: cs).all isNumChar = true := by
              simp only [numRepr, hs, Bool.and_eq_true] at hwf
              exact hwf.2
            simpa [List.all_eq_true] using h2
          obtain ⟨hn1, hn2, hn3, hn4, hn5, hn6, -, -⟩ := numStart_ne c hstart
          have hd : dumpJ (.num s) ++ r = c :: (cs ++ r) := by
            simp [dumpJ, hs]
          rw [hd]
          simp only [parseJ, if_neg hn1, if_neg hn2, if_neg hn3, if_neg hn4,
            if_neg hn5, if_neg hn6, if_pos hstart]
          have hguard : r = [] ∨ ∃ c' t', r = c' :: t' ∧ isNumChar c' = false := by
            rcases r with _ | ⟨c', t'⟩
            · exact Or.inl rfl
            · exact Or.inr ⟨c', t', rfl, hnum⟩
          have hspan : spanNum ((c :: cs) ++ r) = (c :: cs, r) :=
            spanNum_append (c :: cs) hall r hguard
          rw [show c :: (cs ++ r) = (c :: cs) ++ r from rfl, hspan]
          rw [← hs]
      | str s =>
        have hd : dumpJ (.str s) ++ r = '"' :: (escList s.data ++ '"' :: r) := by
          simp [dumpJ, encStr, List.cons_append, List.append_assoc]
        rw [hd]
        simp only [parseJ, reduceIte]
        rw [decStr_escList s.data _ r (by
          have := escList_length s.data
          simp only [List.length_append, List.length_cons]
          omega)]
        rfl
      | arr l =>
        cases l with
        | nil => simp [dumpJ, dumpJList, parseJ]
        | cons v tl =>
          have hwf' : wfJ v = true ∧ wfJL tl = true := by
            simp only [wfJ, wfJL, Bool.and_eq_true] at hwf
            exact hwf
          obtain ⟨a, t, hat, hane, -⟩ := dumpJ_head v hwf'.1
          obtain ⟨tp, htp⟩ : ∃ tp, dumpJList (.cons v tl) = dumpJ v ++ tp := by
            cases tl with
            | nil => exact ⟨[], by simp [dumpJList]⟩
            | cons k tl2 => exact ⟨',' :: ' ' :: dumpJList (.cons k tl2), rfl⟩
          have hd : dumpJ (.arr (.cons v tl)) ++ r =
              '[' :: (a :: (t ++ (tp ++ ']' :: r))) := by
            simp only [dumpJ, htp, hat, List.cons_append, List.append_assoc,
              List.nil_append]
          rw [hd]
          simp only [parseJ]
          rw [if_neg (by decide : ¬('[' : Char) = 'n'),
            if_neg (by decide : ¬('[' : Char) = 't'),
            if_neg (by decide : ¬('[' : Char) = 'f'),
            if_neg (by decide : ¬('[' : Char) = '"')]
          simp only [if_true]
          split
          · rename_i heq
            injection heq with h1 h2
            exact absurd h1 hane
          · rw [show a :: (t ++ (tp ++ ']' :: r)) =
                dumpJList (.cons v tl) ++ ']' :: r from by
              simp only [htp, hat, List.cons_append, List.append_assoc]]
            rw [ihL (.cons v tl) r (by simp [wfJL, hwf'.1, hwf'.2]) (by intro hctr; cases hctr)
              (by simp only [sizeJ] at hsz; omega)]
            rfl
      | obj l =>
        cases l with
        | nil => simp [dumpJ, dumpJObj, parseJ]
        | cons k v tl =>
          have hobj : ∃ t, dumpJObj (.cons k v tl) = '"' :: t := by
            cases tl with
            | nil => exact ⟨escList k.data ++ ['"'] ++ ':' :: ' ' :: dumpJ v, by
                simp [dumpJObj, encStr, List.cons_append, List.append_assoc]⟩
            | cons k2 v2 tl2 => exact ⟨escList k.data ++ ['"'] ++ ':' :: ' ' :: dumpJ v ++
                ',' :: ' ' :: dumpJObj (.cons k2 v2 tl2), by
                simp [dumpJObj, encStr, List.cons_append, List.append_assoc]⟩
          obtain ⟨t, ht⟩ := hobj
          have hd : dumpJ (.obj (.cons k v tl)) ++ r =
              '\x7b' :: ('"' :: (t ++ '\x7d' :: r)) := by
            simp only [dumpJ, ht, List.cons_append, List.append_assoc, List.nil_append]
          rw [hd]
          simp only [parseJ]
          rw [if_neg (by decide : ¬('\x7b' : Char) = 'n'),
            if_neg (by decide : ¬('\x7b' : Char) = 't'),
            if_neg (by decide : ¬('\x7b' : Char) = 'f'),
            if_neg (by decide : ¬('\x7b' : Char) = '"'),
            if_neg (by decide : ¬('\x7b' : Char) = '[')]
          simp only [if_true]
          split
          · rename_i heq
            injection heq with h1 h2
            exact absurd h1 (by decide)
          · rw [show ('"' : Char) :: (t ++ '\x7d' :: r) =
                dumpJObj (.cons k v tl) ++ '\x7d' :: r from by
              rw [ht]
              simp only [List.cons_append]]
            rw [ihO (.cons k v tl) r (by
                simp only [wfJ, wfJO, Bool.and_eq_true] at hwf ⊢
                exact hwf) (by intro hctr; cases hctr)
              (by simp only [sizeJ] at hsz; omega)]
            rfl
    · intro l r hwf hne hsz
      cases l with
      | nil => exact absurd rfl hne
      | cons v tl =>
        have hwf' : wfJ v = true ∧ wfJL tl = true := by
          simp only [wfJL, Bool.and_eq_true] at hwf
          exact hwf
        simp only [sizeJL] at hsz
        cases tl with
        | nil =>
          have hd : dumpJList (.cons v .nil) ++ ']' :: r = dumpJ v ++ ']' :: r := by
            simp [dumpJList]
          rw [hd]
          simp only [parseJList]
          rw [ihJ v (']' :: r) hwf'.1 (by have := sizeJL_pos (JList.nil); omega)
            (numOk_cons v ']' r (by decide))]
          rfl
        | cons k tl2 =>
          have hd : dumpJList (.cons v (.cons k tl2)) ++ ']' :: r =
              dumpJ v ++ ',' :: ' ' :: (dumpJList (.cons k tl2) ++ ']' :: r) := by
            simp [dumpJList, List.cons_append, List.append_assoc]
          rw [hd]
          simp only [parseJList]
          rw [ihJ v _ hwf'.1 (by have := sizeJL_pos (JList.cons k tl2); omega)
            (numOk_cons v ',' _ (by decide))]
          show (parseJList f (dumpJList (.cons k tl2) ++ ']' :: r)).map
            (fun q => (JList.cons v q.1, q.2)) = some (.cons v (.cons k tl2), r)
          rw [ihL (.cons k tl2) r hwf'.2 (by intro hctr; cases hctr)
            (by have := sizeJ_pos v; omega)]
          rfl
    · intro l r hwf hne hsz
      cases l with
      | nil => exact absurd rfl hne
      | cons k v tl =>
        have hwf' : wfJ v = true ∧ wfJO tl = true := by
          simp only [wfJO, Bool.and_eq_true] at hwf
          exact hwf
        simp only [sizeJO] at hsz
        cases tl with
        | nil =>
          have hd : dumpJObj (.cons k v .nil) ++ '\x7d' :: r =
              '"' :: (escList k.data ++ '"' :: (':' :: ' ' :: (dumpJ v ++ '\x7d' :: r))) := by
            simp [dumpJObj, encStr, List.cons_append, List.append_assoc]
          rw [hd]
          simp only [parseJObj]
          rw [decStr_escList k.data _ _ (by
            have := escList_length k.data
            simp only [List.length_append, List.length_cons]
            omega)]
          show (parseJ f (dumpJ v ++ '\x7d' :: r)).bind (fun pv =>
            match pv.2 with
            | '\x7d' :: r2 => some (JObj.cons ⟨k.data⟩ pv.1 JObj.nil, r2)
            | ',' :: ' ' :: r2 =>
              (parseJObj f r2).map fun q => (JObj.cons ⟨k.data⟩ pv.1 q.1, q.2)
            | _ => none) = some (JObj.cons k v JObj.nil, r)
          rw [ihJ v _ hwf'.1 (by have := sizeJO_pos (JObj.nil); omega)
            (numOk_cons v '\x7d' r (by decide))]
          rfl
        | cons k2 v2 tl2 =>
          have hd : dumpJObj (.cons k v (.cons k2 v2 tl2)) ++ '\x7d' :: r =
              '"' :: (escList k.data ++ '"' :: (':' :: ' ' ::
                (dumpJ v ++ ',' :: ' ' :: (dumpJObj (.cons k2 v2 tl2) ++ '\x7d' :: r)))) := by
            simp [dumpJObj, encStr, List.cons_append, List.append_assoc]
          rw [hd]
          simp only [parseJObj]
          rw [decStr_escList k.data _ _ (by
            have := escList_length k.data
            simp only [List.length_append, List.length_cons]
            omega)]
          show (parseJ f (dumpJ v ++ ',' :: ' ' ::
              (dumpJObj (.cons k2 v2 tl2) ++ '\x7d' :: r))).bind (fun pv =>
            match pv.2 with
            | '\x7d' :: r2 => some (JObj.cons ⟨k.data⟩ pv.1 JObj.nil, r2)
            | ',' :: ' ' :: r2 =>
              (parseJObj f r2).map fun q => (JObj.cons ⟨k.data⟩ pv.1 q.1, q.2)
            | _ => none) = some (JObj.cons k v (JObj.cons k2 v2 tl2), r)
          rw [ihJ v _ hwf'.1 (by have := sizeJO_pos (JObj.cons k2 v2 tl2); omega)
            (numOk_cons v ',' _ (by decide))]
          show (parseJObj f (dumpJObj (.cons k2 v2 tl2) ++ '\x7d' :: r)).map
            (fun q => (JObj.cons ⟨k.data⟩ v q.1, q.2)) = some (.cons k v (.cons k2 v2 tl2), r)
          rw [ihO (.cons k2 v2 tl2) r hwf'.2 (by intro hctr; cases hctr)
            (by have := sizeJ_pos v; omega)]
          rfl

/-! ## Fingerprint injectivity (claims C9 and C10) -/

/-- The residual guard of the round-trip is vacuous for an empty residue. -/
theorem numOk_nil (v : J) : numOk v [] := by
  cases v <;> trivial

/-- On well-formed values the serializer is injective: two values with the
same dump are read back to themselves, hence equal. -/
theorem dumpJ_inj {v1 v2 : J} (h1 : wfJ v1 = true) (h2 : wfJ v2 = true)
    (h : dumpJ v1 = dumpJ v2) : v1 = v2 := by
  have p1 := (parse_roundtrip (max (sizeJ v1) (sizeJ v2))).1 v1 [] h1
      (le_max_left _ _) (numOk_nil v1)
  have p2 := (parse_roundtrip (max (sizeJ v1) (sizeJ v2))).1 v2 [] h2
      (le_max_right _ _) (numOk_nil v2)
  rw [List.append_nil] at p1 p2
  rw [h] at p1
  have h3 := p1.symm.trans p2
  simp only [Option.some.injEq, Prod.mk.injEq, and_true] at h3
  exact h3

/-- Every message dictionary is a well-formed JSON value. -/
theorem wfJ_msgToJ (m : Message) : wfJ (msgToJ m) = true := by
  cases m <;> simp [msgToJ, wfJ, wfJO]

/-- The message array of a request is well formed. -/
theorem wfJL_msgs (msgs : List Message) :
    wfJL (toJList (msgs.map msgToJ)) = true := by
  induction msgs with
  | nil => simp [toJList, wfJL]
  | cons m tl ih => simp [toJList, wfJL, wfJ_msgToJ, ih]

/-- A schema dictionary is well formed exactly when its `parameters` value is. -/
theorem wfJ_schemaToJ (s : Schema) : wfJ (schemaToJ s) = wfJ s.parameters := by
  simp [schemaToJ, wfJ, wfJO]

/-- The schema array of a `functions` list with well-formed parameters is
well formed. -/
theorem wfJL_schemas (l : List Schema)
    (h : (l.all fun s => wfJ s.parameters) = true) :
    wfJL (toJList (l.map schemaToJ)) = true := by
  induction l with
  | nil => simp [toJList, wfJL]
  | cons s tl ih =>
      simp only [List.all_cons, Bool.and_eq_true] at h
      simp [toJList, wfJL, wfJ_schemaToJ, h.1, ih h.2]

/-- The serialized `functions` argument of a well-formed request is well
formed. -/
theorem wfJ_functionsToJ (o : Option (List Schema))
    (h : (match o with
          | none => true
          | some l => l.all fun s => wfJ s.parameters) = true) :
    wfJ (functionsToJ o) = true := by
  cases o with
  | none => simp [functionsToJ, wfJ]
  | some l => simpa [functionsToJ, wfJ, wfJL] using wfJL_schemas l h

/-- The full serialized tuple of a well-formed request is a well-formed JSON
value. -/
theorem wfJ_reqToJ (r : Request) (h : wfRequest r = true) :
    wfJ (reqToJ r) = true := by
  simp only [wfRequest, Bool.and_eq_true] at h
  obtain ⟨⟨ht, hp⟩, hf⟩ := h
  simp [reqToJ, wfJ, wfJL, wfJO, ht, hp, wfJL_msgs, wfJ_functionsToJ r.functions hf]

/-- `toJList` is injective. -/
theorem toJList_inj : ∀ {l1 l2 : List J}, toJList l1 = toJList l2 → l1 = l2
  | [], [], _ => rfl
  | [], _ :: _, h => by simp [toJList] at h
  | _ :: _, [], h => by simp [toJList] at h
  | _ :: t1, _ :: t2, h => by
      simp only [toJList, JList.cons.injEq] at h
      rw [h.1, toJList_inj h.2]

/-- Distinct message dictionaries serialize to distinct JSON values: the four
shapes differ in their fixed keys or spine length, and within one shape the
payload strings are recovered from the value. -/
theorem msgToJ_inj : Function.Injective msgToJ := by
  intro m1 m2 h
  cases m1 <;> cases m2 <;> simp_all [msgToJ]

/-- Distinct schema dictionaries serialize to distinct JSON values. -/
theorem schemaToJ_inj : Function.Injective schemaToJ := by
  intro s1 s2 h
  cases s1
  cases s2
  simp_all [schemaToJ]

/-- The serialized `functions` argument determines the argument. -/
theorem functionsToJ_inj : Function.Injective functionsToJ := by
  intro o1 o2 h
  cases o1 with
  | none =>
      cases o2 with
      | none => rfl
      | some l => simp [functionsToJ] at h
  | some l1 =>
      cases o2 with
      | none => simp [functionsToJ] at h
      | some l2 =>
          simp only [functionsToJ, J.arr.injEq] at h
          exact congrArg some (List.map_injective_iff.2 schemaToJ_inj (toJList_inj h))

/-- The serialized tuple determines every request field. -/
theorem reqToJ_inj : ∀ {r1 r2 : Request}, reqToJ r1 = reqToJ r2 → r1 = r2 := by
  intro r1 r2 h
  obtain ⟨m1, t1, p1, ms1, f1, c1⟩ := r1
  obtain ⟨m2, t2, p2, ms2, f2, c2⟩ := r2
  simp only [reqToJ, J.arr.injEq, JList.cons.injEq, J.obj.injEq, JObj.cons.injEq,
    J.str.injEq, J.num.injEq, J.bool.injEq, and_true, true_and] at h
  obtain ⟨hm, ht, hp, hmsg, hfn, hc⟩ := h
  simp only [Request.mk.injEq]
  exact ⟨hm, ht, hp, List.map_injective_iff.2 msgToJ_inj (toJList_inj hmsg),
    functionsToJ_inj hfn, hc⟩

/-- Two well-formed requests with the same serialized text are equal. -/
theorem serializeRequest_inj {r1 r2 : Request} (h1 : wfRequest r1 = true)
    (h2 : wfRequest r2 = true) (h : serializeRequest r1 = serializeRequest r2) :
    r1 = r2 := by
  have hd : dumpJ (reqToJ r1) = dumpJ (reqToJ r2) := congrArg String.data h
  exact reqToJ_inj (dumpJ_inj (wfJ_reqToJ r1 h1) (wfJ_reqToJ r2 h2) hd)

/-- Under an injective digest the fingerprint determines the well-formed
request. -/
theorem fingerprint_inj {d : String → String} (hd : Function.Injective d)
    {r1 r2 : Request} (h1 : wfRequest r1 = true) (h2 : wfRequest r2 = true)
    (h : fingerprint d r1 = fingerprint d r2) : r1 = r2 :=
  serializeRequest_inj h1 h2 (hd h)

/-- C9: the cache fingerprint is a pure function of the request, so computing
it twice on the same (messages, params) yields the same value - in particular
across process restarts, since no process-local state enters `fingerprint` -
and, under an injective digest, two distinct well-formed requests (differing
in any field, e.g. one float parameter) have distinct fingerprints. -/
theorem C9_fingerprint_determinism :
    (∀ (d : String → String) (r1 r2 : Request), r1 = r2 →
      fingerprint d r1 = fingerprint d r2) ∧
    (∀ d : String → String, Function.Injective d →
      ∀ r1 r2 : Request, wfRequest r1 = true → wfRequest r2 = true →
        r1 ≠ r2 → fingerprint d r1 ≠ fingerprint d r2) :=
  ⟨fun d _ _ h => congrArg (fingerprint d) h,
   fun _ hd _ _ h1 h2 hne h => hne (fingerprint_inj hd h1 h2 h)⟩

/-- C9 witness: on two concrete requests differing only in the temperature
field, the fingerprint under the identity digest is reproducible and the two
fingerprints differ. -/
theorem C9_witness :
    wfRequest rWA = true ∧ wfRequest rWB = true ∧ rWA ≠ rWB ∧
    fingerprint id rWA = fingerprint id rWA ∧
    fingerprint id rWA ≠ fingerprint id rWB := by
  have hne : rWA ≠ rWB := fun hcontr =>
    absurd (congrArg Request.temperature hcontr) (by decide)
  exact ⟨by decide, by decide, hne,
    C9_fingerprint_determinism.1 id rWA rWA rfl,
    C9_fingerprint_determinism.2 id (fun _ _ hh => hh) rWA rWB
      (by decide) (by decide) hne⟩

/-- C10: the key is computed while `caching` is still among the keyword
arguments, so the flag's value is serialized into the fingerprint: under an
injective digest, a call with caching=False and a call with caching=True
compute different cache keys even when every other parameter and the message
list coincide - hence an entry written during a caching=False call sits under
a key no cache-enabled lookup (which always uses a caching=True key) reads. -/
theorem C10_caching_flag_in_key :
    ∀ cfg : Cfg, Function.Injective cfg.d →
      ∀ (p p' : Prm) (msgs msgs' : List Message),
        wfRequest (mkRequest p msgs) = true →
        wfRequest (mkRequest p' msgs') = true →
        p.caching = false → p'.caching = true →
        requestKey cfg p msgs ≠ requestKey cfg p' msgs' := by
  intro cfg hd p p' msgs msgs' h1 h2 hf ht h
  have he : mkRequest p msgs = mkRequest p' msgs' :=
    fingerprint_inj hd h1 h2 h
  have hc := congrArg Request.caching he
  simp only [mkRequest] at hc
  rw [hf, ht] at hc
  exact Bool.false_ne_true hc

/-- C10 witness: with the identity digest, the caching-disabled and
caching-enabled variants of the same concrete call have different keys. -/
theorem C10_witness :
    requestKey cfgId prmF [] ≠ requestKey cfgId prmT [] :=
  C10_caching_flag_in_key cfgId (fun _ _ hh => hh) prmF prmT [] []
    (by decide) (by decide) rfl rfl

end SelfGpt
